import Mathlib

/-!
Verification of the obsync version-history engine against its specification.

The embedding below translates the timestamp-schema client engine
(`HistoryService` in `src/history.ts` together with the timestamp-schema
`DbService` query semantics shown in `src/db.test.ts` / `src/history.test.ts`)
and the server-side reconciliation service (`server/src/services/sync.ts`,
`server/src/db.ts`) into pure Lean functions over explicit store states.

Modelling conventions:
* `uuidv7()` is modelled by a counter `nextId` carried in the store: every
  insert consumes one fresh identifier, which preserves exactly the property
  the code relies on (global uniqueness of generated ids).
* `Date.now()` is an explicit `now : Nat` argument of each operation.
* The external diff/patch capability (`diff-match-patch-ts`) is an abstract
  `Codec`; `Codec.apply` returns the best-effort patched text together with
  the per-patch success list, mirroring `patch_apply`, and never throws.
* A thrown exception is `none` in an `Option` result.
-/

namespace Obsync

/-- A row of the client `files` table (timestamp schema, `src/db.test.ts`). -/
structure FileRecord where
  id : Nat
  path : String
  deleted_at : Option Nat
  created_at : Nat
  updated_at : Nat
deriving DecidableEq, Repr

/-- A row of the client `versions` table (timestamp schema). -/
structure VersionRecord where
  id : Nat
  file_id : Nat
  is_checkpoint : Bool
  data : String
  created_at : Nat
deriving DecidableEq, Repr

/-- The client store: both tables plus the fresh-id counter that stands in
for the `uuidv7()` generator. -/
structure Store where
  files : List FileRecord
  versions : List VersionRecord
  nextId : Nat
deriving DecidableEq, Repr

def emptyStore : Store := ⟨[], [], 0⟩

/-- The external patch codec capability: `diff a b` is
`patch_toText (patch_make a b)`; `apply p s` is `patch_apply
(patch_fromText p) s`, returning the patched text and per-patch results. -/
structure Codec where
  diff : String → String → String
  apply : String → String → String × List Bool

/-- Exactness of the codec: applying `diff a b` to `a` yields `b`. -/
def Codec.Exact (c : Codec) : Prop := ∀ a b, (c.apply (c.diff a b) a).1 = b

/-- A trivially exact codec (each "patch" is the whole new text); used to
evaluate the engine on concrete inputs. -/
def replaceCodec : Codec := ⟨fun _ b => b, fun p _ => (p, [])⟩

/-! ### Version Store operations (timestamp-schema `DbService`) -/

/-- `SELECT * FROM files WHERE path = ?`. -/
def getFileByPath (s : Store) (path : String) : Option FileRecord :=
  s.files.find? (fun f => decide (f.path = path))

/-- `SELECT * FROM files WHERE id = ?`. -/
def getFileById (s : Store) (id : Nat) : Option FileRecord :=
  s.files.find? (fun f => decide (f.id = id))

/-- `INSERT INTO files ...`; the id generator advances by one. -/
def insertFile (s : Store) (f : FileRecord) : Store :=
  ⟨s.files ++ [f], s.versions, s.nextId + 1⟩

/-- The partial update object accepted by `DbService.updateFile`. -/
structure FileUpdates where
  path : Option String := none
  deleted_at : Option (Option Nat) := none
  updated_at : Option Nat := none

def applyUpdates (f : FileRecord) (u : FileUpdates) : FileRecord :=
  { f with
    path := u.path.getD f.path
    deleted_at := u.deleted_at.getD f.deleted_at
    updated_at := u.updated_at.getD f.updated_at }

/-- `UPDATE files SET ... WHERE id = ?`. -/
def updateFile (s : Store) (id : Nat) (u : FileUpdates) : Store :=
  { s with files := s.files.map (fun f => if f.id = id then applyUpdates f u else f) }

/-- The versions of one file in insertion (rowid) order. -/
def fileVersions (s : Store) (fid : Nat) : List VersionRecord :=
  s.versions.filter (fun v => decide (v.file_id = fid))

/-- `ORDER BY created_at DESC LIMIT 1` over a rowid-ordered candidate list:
a left fold keeping the earliest row with maximal `created_at`, matching the
`(file_id, created_at DESC)` index scan. -/
def pickLater (acc : Option VersionRecord) (v : VersionRecord) : Option VersionRecord :=
  match acc with
  | none => some v
  | some w => if w.created_at < v.created_at then some v else some w

def latestBy (l : List VersionRecord) : Option VersionRecord :=
  l.foldl pickLater none

/-- `SELECT * FROM versions WHERE file_id = ? ORDER BY created_at DESC LIMIT 1`. -/
def getLatestVersion (s : Store) (fid : Nat) : Option VersionRecord :=
  latestBy (fileVersions s fid)

def cpLe (t : Nat) (v : VersionRecord) : Bool :=
  v.is_checkpoint && decide (v.created_at ≤ t)

/-- `SELECT * FROM versions WHERE file_id = ? AND created_at <= ? AND
is_checkpoint = 1 ORDER BY created_at DESC LIMIT 1`. -/
def getNearestCheckpoint (s : Store) (fid t : Nat) : Option VersionRecord :=
  latestBy ((fileVersions s fid).filter (cpLe t))

/-- Stable insertion step for ascending `created_at` order. -/
def insTs (v : VersionRecord) : List VersionRecord → List VersionRecord
  | [] => [v]
  | w :: ws => if v.created_at ≤ w.created_at then v :: w :: ws else w :: insTs v ws

/-- Stable sort by ascending `created_at` (`ORDER BY created_at ASC`, ties in
rowid order). -/
def sortByTs : List VersionRecord → List VersionRecord
  | [] => []
  | v :: vs => insTs v (sortByTs vs)

/-- `SELECT * FROM versions WHERE file_id = ? AND created_at >= ? AND
created_at <= ? ORDER BY created_at ASC`. -/
def getVersionsInRange (s : Store) (fid a b : Nat) : List VersionRecord :=
  sortByTs ((fileVersions s fid).filter
    (fun v => decide (a ≤ v.created_at) && decide (v.created_at ≤ b)))

/-- `INSERT INTO versions ...`; the id generator advances by one. -/
def insertVersion (s : Store) (v : VersionRecord) : Store :=
  ⟨s.files, s.versions ++ [v], s.nextId + 1⟩

/-- Modelled from the spec: the timestamp-schema client `DbService` carries a
`deleteNonFirstCheckpoints(fileId, keepId)` operation whose implementation is
not among the source files (only its caller `createSnapshotIfNeeded` and the
architecture document name it).  Per §4.1 of the spec it deletes every
checkpoint row of the file except the first version ever written and
`keepId`. -/
def deleteNonFirstCheckpoints (s : Store) (fid keepId : Nat) : Store :=
  match s.versions.find? (fun v => decide (v.file_id = fid)) with
  | none => s
  | some first =>
    { s with versions := s.versions.filter (fun v =>
        !(decide (v.file_id = fid) && v.is_checkpoint &&
          !(decide (v.id = first.id)) && !(decide (v.id = keepId)))) }

/-! ### Reconstruction Engine and Ingest Path (`HistoryService`) -/

/-- One step of the reconstruction fold: a diff row is parsed and applied
(best-effort result kept even when some constituent patch fails); a
checkpoint row encountered mid-range replaces the content wholesale. -/
def reconStep (c : Codec) (content : String) (v : VersionRecord) : String :=
  if v.is_checkpoint then v.data else (c.apply v.data content).1

def applyRun (c : Codec) (content : String) (vs : List VersionRecord) : String :=
  vs.foldl (reconStep c) content

/-- `HistoryService.reconstructVersion`: `none` models the thrown
`No checkpoint found` error. -/
def reconstructVersion (c : Codec) (s : Store) (fid t : Nat) : Option String :=
  match getNearestCheckpoint s fid t with
  | none => none
  | some checkpoint =>
    if checkpoint.created_at < t then
      some (applyRun c checkpoint.data
        (getVersionsInRange s fid (checkpoint.created_at + 1) t))
    else
      some checkpoint.data

/-- `HistoryService.save`: get-or-create the file record (clearing
`deleted_at` if set), store the first version as a checkpoint, otherwise
diff against the reconstructed latest content, skipping byte-identical
saves.  `none` models a thrown reconstruction error. -/
def save (c : Codec) (s : Store) (now : Nat) (filePath content : String) : Option Store :=
  let fr : Store × Nat :=
    match getFileByPath s filePath with
    | none =>
      let f : FileRecord := ⟨s.nextId, filePath, none, now, now⟩
      (insertFile s f, f.id)
    | some file =>
      (if file.deleted_at ≠ none then
        updateFile s file.id { deleted_at := some none, updated_at := some now }
      else s, file.id)
  let s1 := fr.1
  let fid := fr.2
  match getLatestVersion s1 fid with
  | none =>
    let v : VersionRecord := ⟨s1.nextId, fid, true, content, now⟩
    some (updateFile (insertVersion s1 v) fid { updated_at := some now })
  | some latestVersion =>
    match reconstructVersion c s1 fid latestVersion.created_at with
    | none => none
    | some previousContent =>
      if previousContent = content then some s1
      else
        let v : VersionRecord :=
          ⟨s1.nextId, fid, false, c.diff previousContent content, now⟩
        some (updateFile (insertVersion s1 v) fid { updated_at := some now })

/-- `HistoryService.markDeleted`. -/
def markDeleted (s : Store) (now : Nat) (filePath : String) : Store :=
  match getFileByPath s filePath with
  | none => s
  | some file =>
    if file.deleted_at = none then
      updateFile s file.id { deleted_at := some (some now), updated_at := some now }
    else s

/-- `HistoryService.restore`: reconstruct, hand the content to the external
vault write-back (returned as the second component), clear `deleted_at` if
set; no version row is written. -/
def restore (c : Codec) (s : Store) (now : Nat) (filePath : String) (t : Nat) :
    Option (Store × String) :=
  match getFileByPath s filePath with
  | none => none
  | some file =>
    match reconstructVersion c s file.id t with
    | none => none
    | some content =>
      let s' :=
        if file.deleted_at ≠ none then
          updateFile s file.id { deleted_at := some none, updated_at := some now }
        else s
      some (s', content)

/-- `HistoryService.createSnapshotIfNeeded`. -/
def createSnapshotIfNeeded (c : Codec) (s : Store) (now fid : Nat) :
    Option (Store × Bool) :=
  match getFileById s fid with
  | none => some (s, false)
  | some file =>
    if file.deleted_at ≠ none then some (s, false)
    else
      match getLatestVersion s fid with
      | none => some (s, false)
      | some latestVersion =>
        if latestVersion.is_checkpoint then some (s, false)
        else
          match reconstructVersion c s fid latestVersion.created_at with
          | none => none
          | some content =>
            let v : VersionRecord := ⟨s.nextId, fid, true, content, now⟩
            let s2 := deleteNonFirstCheckpoints (insertVersion s v) fid v.id
            some (updateFile s2 fid { updated_at := some now }, true)

/-- The per-file loop of `HistoryService.runSnapshotDaemon` over a snapshot
of the file list, skipping soft-deleted files. -/
def daemonPass (c : Codec) (now : Nat) : List FileRecord → Store → Option Store
  | [], s => some s
  | f :: fs, s =>
    if f.deleted_at ≠ none then daemonPass c now fs s
    else
      match createSnapshotIfNeeded c s now f.id with
      | none => none
      | some r => daemonPass c now fs r.1

/-- One pass of the snapshot daemon (`runSnapshotDaemon`). -/
def runDaemon (c : Codec) (s : Store) (now : Nat) : Option Store :=
  daemonPass c now s.files s

/-- A sequence of `save` calls on one path, with explicit clock readings. -/
def saveChain (c : Codec) (p : String) : List (Nat × String) → Store → Option Store
  | [], s => some s
  | e :: rest, s =>
    match save c s e.1 p e.2 with
    | none => none
    | some s1 => saveChain c p rest s1

/-! ### Server-side Cloud Reconciliation Protocol (`server/src`) -/

/-- A row of the server `vaults` table. -/
structure VaultRecord where
  id : Nat
  user_id : Nat
  name : String
  created_at : Nat
  updated_at : Nat
deriving DecidableEq, Repr

/-- A row of the server `files` table. -/
structure ServerFileRecord where
  id : Nat
  vault_id : Nat
  path : String
  deleted_at : Option Nat
  created_at : Nat
  updated_at : Nat
deriving DecidableEq, Repr

/-- A row of the server `versions` table. -/
structure ServerVersionRecord where
  id : Nat
  file_id : Nat
  device_id : Nat
  is_checkpoint : Bool
  data : String
  created_at : Nat
deriving DecidableEq, Repr

/-- One uploaded item of a `POST /sync/versions` batch. -/
structure SyncVersionInput where
  id : Nat
  file_path : String
  file_id : Nat
  is_checkpoint : Bool
  data : String
  created_at : Nat
deriving DecidableEq, Repr

structure SyncContext where
  userId : Nat
  deviceId : Nat
  vaultId : Nat
deriving DecidableEq, Repr

structure SyncError where
  version_id : Nat
  error : String
deriving DecidableEq, Repr

structure SyncVersionsResponse where
  synced : List Nat
  errors : List SyncError
deriving DecidableEq, Repr

/-- The server store (devices carry no behaviour relevant to the claims). -/
structure ServerStore where
  vaults : List VaultRecord
  files : List ServerFileRecord
  versions : List ServerVersionRecord
deriving DecidableEq, Repr

def getVaultById (s : ServerStore) (id : Nat) : Option VaultRecord :=
  s.vaults.find? (fun v => decide (v.id = id))

def sGetFileById (s : ServerStore) (id : Nat) : Option ServerFileRecord :=
  s.files.find? (fun f => decide (f.id = id))

def getFileByVaultAndPath (s : ServerStore) (vaultId : Nat) (path : String) :
    Option ServerFileRecord :=
  s.files.find? (fun f => decide (f.vault_id = vaultId) && decide (f.path = path))

def sInsertFile (s : ServerStore) (f : ServerFileRecord) : ServerStore :=
  { s with files := s.files ++ [f] }

/-- Server `DbService.updateFile` as called from `syncVersions`: only
`updated_at` is set there. -/
def sTouchFile (s : ServerStore) (id now : Nat) : ServerStore :=
  { s with files := s.files.map (fun f =>
      if f.id = id then { f with updated_at := now } else f) }

def sInsertVersion (s : ServerStore) (v : ServerVersionRecord) : ServerStore :=
  { s with versions := s.versions ++ [v] }

/-- `DbService.versionExists`. -/
def versionExists (s : ServerStore) (id : Nat) : Bool :=
  s.versions.any (fun v => decide (v.id = id))

/-- The body of the per-version loop of `syncVersions`: skip an id that
already exists, otherwise resolve the file by `(vault_id, path)` first,
falling back to the client file id, creating the record if both miss, and
insert the version attributed to the uploading device.  The modelled store
operations are total, so the per-item `catch` of the source is unreachable
here and every processed item is synced. -/
def syncStep (now : Nat) (ctx : SyncContext) (st : ServerStore)
    (v : SyncVersionInput) : ServerStore :=
  if versionExists st v.id then st
  else
    match getFileByVaultAndPath st ctx.vaultId v.file_path with
    | some file =>
      sInsertVersion (sTouchFile st file.id now)
        ⟨v.id, file.id, ctx.deviceId, v.is_checkpoint, v.data, v.created_at⟩
    | none =>
      match sGetFileById st v.file_id with
      | some existingById =>
        sInsertVersion st
          ⟨v.id, existingById.id, ctx.deviceId, v.is_checkpoint, v.data, v.created_at⟩
      | none =>
        sInsertVersion
          (sInsertFile st ⟨v.file_id, ctx.vaultId, v.file_path, none, v.created_at, now⟩)
          ⟨v.id, v.file_id, ctx.deviceId, v.is_checkpoint, v.data, v.created_at⟩

def syncLoop (now : Nat) (ctx : SyncContext) :
    ServerStore → List SyncVersionInput → List Nat × ServerStore
  | st, [] => ([], st)
  | st, v :: rest =>
    let st1 := syncStep now ctx st v
    let r := syncLoop now ctx st1 rest
    (v.id :: r.1, r.2)

/-- `syncVersions` (`server/src/services/sync.ts`): verify vault existence
and ownership, then process the batch item by item. -/
def syncVersions (now : Nat) (st : ServerStore) (ctx : SyncContext)
    (vs : List SyncVersionInput) : SyncVersionsResponse × ServerStore :=
  match getVaultById st ctx.vaultId with
  | none => (⟨[], vs.map (fun v => ⟨v.id, "Vault not found"⟩)⟩, st)
  | some vault =>
    if vault.user_id = ctx.userId then
      let r := syncLoop now ctx st vs
      (⟨r.1, []⟩, r.2)
    else
      (⟨[], vs.map (fun v => ⟨v.id, "Access denied to vault"⟩)⟩, st)

/-! ### List-level lemmas about the store queries -/

/-- Strict `created_at` order between version rows. -/
def ltTs (a b : VersionRecord) : Prop := a.created_at < b.created_at

/-- Weak `created_at` order between version rows. -/
def leTs (a b : VersionRecord) : Prop := a.created_at ≤ b.created_at

theorem foldl_pickLater_spec (l : List VersionRecord) (w : VersionRecord) :
    ∃ u, List.foldl pickLater (some w) l = some u ∧ (u = w ∨ u ∈ l) ∧
      w.created_at ≤ u.created_at ∧ ∀ x ∈ l, x.created_at ≤ u.created_at := by
  induction l generalizing w with
  | nil => exact ⟨w, rfl, Or.inl rfl, le_refl _, by simp⟩
  | cons v vs ih =>
    simp only [List.foldl_cons]
    by_cases h : w.created_at < v.created_at
    · obtain ⟨u, hu, hmem, hle, hall⟩ := ih v
      refine ⟨u, ?_, ?_, ?_, ?_⟩
      · simpa [pickLater, h] using hu
      · rcases hmem with rfl | hm
        · exact Or.inr (List.mem_cons_self _ _)
        · exact Or.inr (List.mem_cons_of_mem _ hm)
      · exact le_of_lt (lt_of_lt_of_le h hle)
      · intro x hx
        rcases List.mem_cons.mp hx with rfl | hx2
        · exact hle
        · exact hall x hx2
    · obtain ⟨u, hu, hmem, hle, hall⟩ := ih w
      refine ⟨u, ?_, ?_, hle, ?_⟩
      · simpa [pickLater, h] using hu
      · rcases hmem with rfl | hm
        · exact Or.inl rfl
        · exact Or.inr (List.mem_cons_of_mem _ hm)
      · intro x hx
        rcases List.mem_cons.mp hx with rfl | hx2
        · exact le_trans (Nat.le_of_not_lt h) hle
        · exact hall x hx2

theorem latestBy_eq_none_iff (l : List VersionRecord) :
    latestBy l = none ↔ l = [] := by
  cases l with
  | nil => simp [latestBy]
  | cons v vs =>
    obtain ⟨u, hu, _, _, _⟩ := foldl_pickLater_spec vs v
    simp only [latestBy, List.foldl_cons]
    constructor
    · intro h
      rw [show pickLater none v = some v from rfl] at h
      rw [hu] at h
      exact absurd h (by simp)
    · intro h; exact absurd h (by simp)

theorem latestBy_mem {l : List VersionRecord} {v : VersionRecord}
    (h : latestBy l = some v) : v ∈ l := by
  cases l with
  | nil => simp [latestBy] at h
  | cons w ws =>
    obtain ⟨u, hu, hmem, _, _⟩ := foldl_pickLater_spec ws w
    rw [latestBy, List.foldl_cons, show pickLater none w = some w from rfl, hu] at h
    cases h
    rcases hmem with rfl | hm
    · exact List.mem_cons_self _ _
    · exact List.mem_cons_of_mem _ hm

theorem latestBy_max {l : List VersionRecord} {v : VersionRecord}
    (h : latestBy l = some v) : ∀ x ∈ l, x.created_at ≤ v.created_at := by
  cases l with
  | nil => simp [latestBy] at h
  | cons w ws =>
    obtain ⟨u, hu, _, hle, hall⟩ := foldl_pickLater_spec ws w
    rw [latestBy, List.foldl_cons, show pickLater none w = some w from rfl, hu] at h
    cases h
    intro x hx
    rcases List.mem_cons.mp hx with rfl | hx2
    · exact hle
    · exact hall x hx2

theorem foldl_pickLater_last (l : List VersionRecord) (w : VersionRecord)
    (hall : ∀ x ∈ l, w.created_at < x.created_at) (hp : l.Pairwise ltTs) :
    List.foldl pickLater (some w) l = some (l.getLastD w) := by
  induction l generalizing w with
  | nil => rfl
  | cons v vs ih =>
    have hv : w.created_at < v.created_at := hall v (List.mem_cons_self _ _)
    rw [List.foldl_cons, show pickLater (some w) v = if w.created_at < v.created_at
      then some v else some w from rfl, if_pos hv, List.getLastD_cons]
    exact ih v (fun x hx => (List.pairwise_cons.mp hp).1 x hx) (List.pairwise_cons.mp hp).2

theorem latestBy_last {l : List VersionRecord} (hp : l.Pairwise ltTs) :
    ∀ v vs, l = v :: vs → latestBy l = some (vs.getLastD v) := by
  intro v vs he
  subst he
  rw [latestBy, List.foldl_cons, show pickLater none v = some v from rfl]
  exact foldl_pickLater_last vs v (fun x hx => (List.pairwise_cons.mp hp).1 x hx)
    (List.pairwise_cons.mp hp).2

theorem sortByTs_of_pairwise {l : List VersionRecord} (hp : l.Pairwise leTs) :
    sortByTs l = l := by
  induction l with
  | nil => rfl
  | cons v vs ih =>
    have htail := (List.pairwise_cons.mp hp).2
    rw [sortByTs, ih htail]
    cases vs with
    | nil => rfl
    | cons w ws =>
      have hvw : v.created_at ≤ w.created_at :=
        (List.pairwise_cons.mp hp).1 w (List.mem_cons_self _ _)
      simp [insTs, hvw]

theorem pairwise_lt_le {l : List VersionRecord} (hp : l.Pairwise ltTs) :
    l.Pairwise leTs :=
  hp.imp (fun h => le_of_lt h)

theorem find?_eq_head?_filter (p : VersionRecord → Bool) (l : List VersionRecord) :
    l.find? p = (l.filter p).head? := by
  induction l with
  | nil => rfl
  | cons v vs ih =>
    by_cases h : p v
    · rw [List.find?_cons_of_pos _ h, List.filter_cons_of_pos h, List.head?_cons]
    · rw [List.find?_cons_of_neg _ (by simpa using h),
        List.filter_cons_of_neg (by simpa using h), ih]

/-! ### Flattened reconstruction

`flatReconL` reconstructs from the first version only, ignoring every later
checkpoint.  On well-formed stores it coincides with `reconstructVersion`;
it is the proof device that makes checkpoint pruning transparent. -/

def isDiffLe (t : Nat) (v : VersionRecord) : Bool :=
  !v.is_checkpoint && decide (v.created_at ≤ t)

def applyDiffs (c : Codec) (content : String) (vs : List VersionRecord) : String :=
  vs.foldl (fun acc v => (c.apply v.data acc).1) content

def flatReconL (c : Codec) (L : List VersionRecord) (t : Nat) : Option String :=
  match L.head? with
  | none => none
  | some v0 =>
    if v0.created_at ≤ t then
      some (applyDiffs c v0.data (L.filter (isDiffLe t)))
    else none

def flatRecon (c : Codec) (s : Store) (fid t : Nat) : Option String :=
  flatReconL c (fileVersions s fid) t

theorem applyRun_eq_applyDiffs (c : Codec) (content : String)
    {vs : List VersionRecord} (h : ∀ v ∈ vs, v.is_checkpoint = false) :
    applyRun c content vs = applyDiffs c content vs := by
  induction vs generalizing content with
  | nil => rfl
  | cons v rest ih =>
    have hv : v.is_checkpoint = false := h v (List.mem_cons_self _ _)
    rw [applyRun, applyDiffs, List.foldl_cons, List.foldl_cons]
    rw [show reconStep c content v = (c.apply v.data content).1 by simp [reconStep, hv]]
    exact ih _ (fun w hw => h w (List.mem_cons_of_mem _ hw))

theorem applyDiffs_append (c : Codec) (content : String) (A B : List VersionRecord) :
    applyDiffs c content (A ++ B) = applyDiffs c (applyDiffs c content A) B := by
  simp [applyDiffs, List.foldl_append]

theorem filter_window_split (q : VersionRecord → Bool) {L : List VersionRecord}
    (a b : Nat) (hab : a ≤ b) (hp : L.Pairwise ltTs) :
    L.filter (fun v => q v && decide (v.created_at ≤ b)) =
    L.filter (fun v => q v && decide (v.created_at ≤ a)) ++
      L.filter (fun v => q v && (decide (a < v.created_at) && decide (v.created_at ≤ b))) := by
  induction L with
  | nil => rfl
  | cons u us ih =>
    have hub := (List.pairwise_cons.mp hp).1
    have ihs := ih (List.pairwise_cons.mp hp).2
    by_cases hq : q u
    · by_cases h1 : u.created_at ≤ a
      · have h2 : u.created_at ≤ b := le_trans h1 hab
        have h3 : ¬ a < u.created_at := Nat.not_lt.mpr h1
        rw [List.filter_cons_of_pos (by simp [hq, h2]),
          List.filter_cons_of_pos (by simp [hq, h1]),
          List.filter_cons_of_neg (by simp [hq, h3]),
          List.cons_append, ihs]
      · by_cases h2 : u.created_at ≤ b
        · have h3 : a < u.created_at := Nat.lt_of_not_le h1
          have hnil : us.filter (fun v => q v && decide (v.created_at ≤ a)) = [] := by
            rw [List.filter_eq_nil_iff]
            intro x hx
            have hax : a < x.created_at := lt_trans h3 (hub x hx)
            simp [Nat.not_le.mpr hax]
          rw [List.filter_cons_of_pos (by simp [hq, h2]),
            List.filter_cons_of_neg (by simp [hq, h1]),
            List.filter_cons_of_pos (by simp [hq, h2, h3]),
            ihs, hnil, List.nil_append, List.nil_append]
        · have h3 : ¬ a < u.created_at ∨ ¬ u.created_at ≤ b := Or.inr h2
          rw [List.filter_cons_of_neg (by simp [h2]),
            List.filter_cons_of_neg (by simp [h1]),
            List.filter_cons_of_neg (by simp [h2]),
            ihs]
    · rw [List.filter_cons_of_neg (by simp [hq]),
        List.filter_cons_of_neg (by simp [hq]),
        List.filter_cons_of_neg (by simp [hq]),
        ihs]

/-- Well-formedness of one file's version list: strictly increasing
timestamps, checkpoint first, and every checkpoint's payload agreeing with
the flattened reconstruction at its own timestamp. -/
structure WFL (c : Codec) (L : List VersionRecord) : Prop where
  mono : L.Pairwise ltTs
  firstCp : ∀ v0, L.head? = some v0 → v0.is_checkpoint = true
  cpData : ∀ v ∈ L, v.is_checkpoint = true → flatReconL c L v.created_at = some v.data

/-- `reconstructVersion` as a function of one file's version list alone. -/
def reconList (c : Codec) (L : List VersionRecord) (t : Nat) : Option String :=
  match latestBy (L.filter (cpLe t)) with
  | none => none
  | some checkpoint =>
    if checkpoint.created_at < t then
      some (applyRun c checkpoint.data (sortByTs (L.filter
        (fun v => decide (checkpoint.created_at + 1 ≤ v.created_at) &&
          decide (v.created_at ≤ t)))))
    else some checkpoint.data

theorem reconstructVersion_eq_reconList (c : Codec) (s : Store) (fid t : Nat) :
    reconstructVersion c s fid t = reconList c (fileVersions s fid) t := rfl

theorem reconList_eq_flat (c : Codec) (L : List VersionRecord)
    (h : WFL c L) (t : Nat) : reconList c L t = flatReconL c L t := by
  have hfilter : ∀ v ∈ L.filter (cpLe t),
      v ∈ L ∧ v.is_checkpoint = true ∧ v.created_at ≤ t := by
    intro v hv
    have hm := List.mem_filter.mp hv
    have hp := hm.2
    simp [cpLe] at hp
    exact ⟨hm.1, hp.1, hp.2⟩
  rw [reconList]
  cases hcp : latestBy (L.filter (cpLe t)) with
  | none =>
    have hnil := (latestBy_eq_none_iff _).mp hcp
    cases L with
    | nil => rfl
    | cons v0 rest =>
      have hv0cp : v0.is_checkpoint = true := h.firstCp v0 rfl
      by_cases hle : v0.created_at ≤ t
      · exfalso
        have hmem : v0 ∈ (v0 :: rest).filter (cpLe t) :=
          List.mem_filter.mpr ⟨List.mem_cons_self _ _, by simp [cpLe, hv0cp, hle]⟩
        rw [hnil] at hmem
        simp at hmem
      · simp [flatReconL, hle]
  | some cp =>
    obtain ⟨hcpmem, hcpcp, hcple⟩ := hfilter cp (latestBy_mem hcp)
    have hmax : ∀ x ∈ L, x.is_checkpoint = true →
        x.created_at ≤ t → x.created_at ≤ cp.created_at := by
      intro x hx hxcp hxle
      exact latestBy_max hcp x (List.mem_filter.mpr ⟨hx, by simp [cpLe, hxcp, hxle]⟩)
    obtain ⟨v0, rest, rfl⟩ : ∃ v0 rest, L = v0 :: rest := by
      cases L with
      | nil => simp at hcpmem
      | cons w ws => exact ⟨w, ws, rfl⟩
    show (if cp.created_at < t then
        some (applyRun c cp.data (sortByTs ((v0 :: rest).filter
          (fun v => decide (cp.created_at + 1 ≤ v.created_at) &&
            decide (v.created_at ≤ t)))))
      else some cp.data) = flatReconL c (v0 :: rest) t
    have hv0le : v0.created_at ≤ cp.created_at := by
      rcases List.mem_cons.mp hcpmem with rfl | hmem
      · exact le_refl _
      · exact le_of_lt ((List.pairwise_cons.mp h.mono).1 cp hmem)
    have hv0t : v0.created_at ≤ t := le_trans hv0le hcple
    have hflatcp := h.cpData cp hcpmem hcpcp
    rw [show flatReconL c (v0 :: rest) cp.created_at =
        if v0.created_at ≤ cp.created_at then
          some (applyDiffs c v0.data ((v0 :: rest).filter (isDiffLe cp.created_at)))
        else none from rfl, if_pos hv0le] at hflatcp
    have heq1 : applyDiffs c v0.data
        ((v0 :: rest).filter (isDiffLe cp.created_at)) = cp.data :=
      Option.some.inj hflatcp
    have hsplit := filter_window_split (fun v => !v.is_checkpoint)
      cp.created_at t hcple h.mono
    have hflat : flatReconL c (v0 :: rest) t =
        some (applyDiffs c v0.data ((v0 :: rest).filter (isDiffLe t))) := by
      rw [show flatReconL c (v0 :: rest) t =
        if v0.created_at ≤ t then
          some (applyDiffs c v0.data ((v0 :: rest).filter (isDiffLe t)))
        else none from rfl, if_pos hv0t]
    by_cases hlt : cp.created_at < t
    · rw [if_pos hlt, hflat]
      have hmid : ∀ v ∈ (v0 :: rest),
          (decide (cp.created_at + 1 ≤ v.created_at) && decide (v.created_at ≤ t)) =
          ((!v.is_checkpoint) && (decide (cp.created_at < v.created_at) &&
            decide (v.created_at ≤ t))) := by
        intro v hv
        by_cases h1 : cp.created_at < v.created_at
        · by_cases h2 : v.created_at ≤ t
          · have hvncp : v.is_checkpoint = false := by
              by_contra hne
              have := hmax v hv (by simpa using hne) h2
              omega
            simp [h1, h2, hvncp, Nat.succ_le_iff]
          · simp [h2]
        · simp [h1, Nat.succ_le_iff]
      have hrange : sortByTs ((v0 :: rest).filter
          (fun v => decide (cp.created_at + 1 ≤ v.created_at) &&
            decide (v.created_at ≤ t))) =
          (v0 :: rest).filter (fun v => (!v.is_checkpoint) &&
            (decide (cp.created_at < v.created_at) && decide (v.created_at ≤ t))) := by
        rw [List.filter_congr hmid]
        apply sortByTs_of_pairwise
        exact pairwise_lt_le (h.mono.sublist (List.filter_sublist _))
      have hnocp : ∀ v ∈ (v0 :: rest).filter (fun v => (!v.is_checkpoint) &&
          (decide (cp.created_at < v.created_at) && decide (v.created_at ≤ t))),
          v.is_checkpoint = false := by
        intro v hv
        have hvp := (List.mem_filter.mp hv).2
        simp at hvp
        exact hvp.1
      rw [hrange, applyRun_eq_applyDiffs c _ hnocp]
      congr 1
      rw [show ((v0 :: rest).filter (isDiffLe t)) = (v0 :: rest).filter
          (fun v => (!v.is_checkpoint) && decide (v.created_at ≤ t)) from rfl, hsplit]
      rw [applyDiffs_append]
      rw [show ((v0 :: rest).filter
          (fun v => (!v.is_checkpoint) && decide (v.created_at ≤ cp.created_at))) =
          (v0 :: rest).filter (isDiffLe cp.created_at) from rfl, heq1]
    · have hteq : cp.created_at = t := le_antisymm hcple (Nat.le_of_not_lt hlt)
      rw [if_neg hlt, hflat]
      rw [show ((v0 :: rest).filter (isDiffLe t)) =
        (v0 :: rest).filter (isDiffLe cp.created_at) by rw [hteq], heq1]

theorem recon_eq_flat (c : Codec) (s : Store) (fid : Nat)
    (h : WFL c (fileVersions s fid)) (t : Nat) :
    reconstructVersion c s fid t = flatRecon c s fid t :=
  reconList_eq_flat c (fileVersions s fid) h t

/-! ### Preservation of well-formedness by the engine's operations -/

theorem head?_append_of_ne_nil {l : List VersionRecord} (l' : List VersionRecord)
    (h : l ≠ []) : (l ++ l').head? = l.head? := by
  cases l with
  | nil => exact absurd rfl h
  | cons v vs => rfl

theorem flatReconL_cons (c : Codec) (v0 : VersionRecord)
    (rest : List VersionRecord) (t : Nat) :
    flatReconL c (v0 :: rest) t =
    if v0.created_at ≤ t then
      some (applyDiffs c v0.data ((v0 :: rest).filter (isDiffLe t)))
    else none := rfl

theorem flatReconL_append (c : Codec) {L : List VersionRecord} (hne : L ≠ [])
    {x : VersionRecord} (t : Nat) (hx : x.is_checkpoint = true ∨ t < x.created_at) :
    flatReconL c (L ++ [x]) t = flatReconL c L t := by
  obtain ⟨v0, rest, rfl⟩ : ∃ v0 rest, L = v0 :: rest := by
    cases L with
    | nil => exact absurd rfl hne
    | cons w ws => exact ⟨w, ws, rfl⟩
  have hxf : isDiffLe t x = false := by
    rcases hx with hcp | hts
    · simp [isDiffLe, hcp]
    · simp [isDiffLe, Nat.not_le.mpr hts]
  have hfil : List.filter (isDiffLe t) (v0 :: (rest ++ [x])) =
      List.filter (isDiffLe t) (v0 :: rest) := by
    rw [← List.cons_append, List.filter_append]
    simp [List.filter_singleton, hxf]
  rw [List.cons_append, flatReconL_cons, flatReconL_cons, hfil]

theorem flatReconL_congr_le (c : Codec) (L : List VersionRecord) (t t' : Nat)
    (hle : t ≤ t') (hbound : ∀ v ∈ L, v.created_at ≤ t) :
    flatReconL c L t' = flatReconL c L t := by
  cases L with
  | nil => rfl
  | cons v0 rest =>
    have hv0 : v0.created_at ≤ t := hbound v0 (List.mem_cons_self _ _)
    rw [flatReconL_cons, flatReconL_cons, if_pos (le_trans hv0 hle), if_pos hv0]
    congr 2
    apply List.filter_congr
    intro v hv
    have hvle : v.created_at ≤ t := hbound v hv
    simp [isDiffLe, hvle, le_trans hvle hle]

theorem WFL_nil (c : Codec) : WFL c [] :=
  ⟨List.Pairwise.nil, by intro v0 h; simp at h, by intro v h; simp at h⟩

theorem WFL_singleton_cp (c : Codec) {v : VersionRecord}
    (hcp : v.is_checkpoint = true) : WFL c [v] := by
  refine ⟨?_, ?_, ?_⟩
  · exact List.pairwise_singleton _ _
  · intro v0 h
    simp at h
    rw [← h]; exact hcp
  · intro w hw _
    have hwv : w = v := by simpa using hw
    subst hwv
    simp [flatReconL, isDiffLe, hcp, applyDiffs]

theorem WFL_append_diff (c : Codec) {L : List VersionRecord} (h : WFL c L)
    (hne : L ≠ []) {d : VersionRecord} (hcp : d.is_checkpoint = false)
    (hts : ∀ v ∈ L, v.created_at < d.created_at) : WFL c (L ++ [d]) := by
  refine ⟨?_, ?_, ?_⟩
  · rw [List.pairwise_append]
    exact ⟨h.mono, List.pairwise_singleton _ _,
      fun a ha b hb => by rw [List.mem_singleton.mp hb]; exact hts a ha⟩
  · intro v0 hv0
    rw [head?_append_of_ne_nil _ hne] at hv0
    exact h.firstCp v0 hv0
  · intro v hv hvcp
    rcases List.mem_append.mp hv with hvL | hvd
    · rw [flatReconL_append c hne v.created_at (Or.inr (hts v hvL))]
      exact h.cpData v hvL hvcp
    · rw [List.mem_singleton.mp hvd] at hvcp
      rw [hcp] at hvcp
      exact absurd hvcp (by simp)

theorem WFL_append_cp (c : Codec) {L : List VersionRecord} (h : WFL c L)
    (hne : L ≠ []) {K : VersionRecord} (hcp : K.is_checkpoint = true)
    (hts : ∀ v ∈ L, v.created_at < K.created_at)
    (hdata : flatReconL c L K.created_at = some K.data) : WFL c (L ++ [K]) := by
  refine ⟨?_, ?_, ?_⟩
  · rw [List.pairwise_append]
    exact ⟨h.mono, List.pairwise_singleton _ _,
      fun a ha b hb => by rw [List.mem_singleton.mp hb]; exact hts a ha⟩
  · intro v0 hv0
    rw [head?_append_of_ne_nil _ hne] at hv0
    exact h.firstCp v0 hv0
  · intro v hv hvcp
    rcases List.mem_append.mp hv with hvL | hvK
    · rw [flatReconL_append c hne v.created_at (Or.inr (hts v hvL))]
      exact h.cpData v hvL hvcp
    · rw [List.mem_singleton.mp hvK]
      rw [flatReconL_append c hne K.created_at (Or.inl hcp)]
      exact hdata

theorem WFL_filter_keep (c : Codec) {L : List VersionRecord} (h : WFL c L)
    (keep : VersionRecord → Bool)
    (hdiff : ∀ v, v.is_checkpoint = false → keep v = true)
    (hhead : ∀ v0, L.head? = some v0 → keep v0 = true) :
    WFL c (L.filter keep) ∧ ∀ t, flatReconL c (L.filter keep) t = flatReconL c L t := by
  cases L with
  | nil => exact ⟨WFL_nil c, fun t => rfl⟩
  | cons v0 rest =>
    have hk0 : keep v0 = true := hhead v0 rfl
    have hfc : (v0 :: rest).filter keep = v0 :: rest.filter keep :=
      List.filter_cons_of_pos hk0
    have hflat : ∀ t, flatReconL c ((v0 :: rest).filter keep) t =
        flatReconL c (v0 :: rest) t := by
      intro t
      rw [hfc, flatReconL_cons, flatReconL_cons]
      congr 2
      rw [← hfc, List.filter_filter]
      congr 1
      apply List.filter_congr
      intro v _
      by_cases hd : isDiffLe t v = true
      · have hvcp : v.is_checkpoint = false := by
          have hd2 := hd
          simp [isDiffLe] at hd2
          exact hd2.1
        rw [hd, hdiff v hvcp]
        rfl
      · rw [Bool.not_eq_true] at hd
        rw [hd]
        simp
    refine ⟨⟨?_, ?_, ?_⟩, hflat⟩
    · exact h.mono.sublist (List.filter_sublist _)
    · intro w hw
      rw [hfc] at hw
      have hwv : v0 = w := by simpa using hw
      exact hwv ▸ h.firstCp v0 rfl
    · intro v hv hvcp
      rw [hflat]
      exact h.cpData v ((List.mem_filter.mp hv).1) hvcp

/-! ### Store-level well-formedness -/

/-- Well-formedness of a client store: fresh-id bookkeeping plus per-file
list well-formedness. -/
structure WF (c : Codec) (s : Store) : Prop where
  fidsNodup : (s.files.map FileRecord.id).Nodup
  fidsLt : ∀ f ∈ s.files, f.id < s.nextId
  vfidLt : ∀ v ∈ s.versions, v.file_id < s.nextId
  wfl : ∀ fid, WFL c (fileVersions s fid)

/-- Every stored version strictly predates the clock reading `now`. -/
def ClockAhead (s : Store) (now : Nat) : Prop :=
  ∀ v ∈ s.versions, v.created_at < now

theorem fileVersions_insertFile (s : Store) (f : FileRecord) (fid : Nat) :
    fileVersions (insertFile s f) fid = fileVersions s fid := rfl

theorem fileVersions_updateFile (s : Store) (i : Nat) (u : FileUpdates) (fid : Nat) :
    fileVersions (updateFile s i u) fid = fileVersions s fid := rfl

theorem fileVersions_insertVersion (s : Store) (v : VersionRecord) (fid : Nat) :
    fileVersions (insertVersion s v) fid =
    fileVersions s fid ++ (if v.file_id = fid then [v] else []) := by
  by_cases h : v.file_id = fid <;>
    simp [fileVersions, insertVersion, List.filter_append, h]

theorem updateFile_ids (s : Store) (i : Nat) (u : FileUpdates) :
    (updateFile s i u).files.map FileRecord.id = s.files.map FileRecord.id := by
  show (s.files.map fun f => if f.id = i then applyUpdates f u else f).map
    FileRecord.id = s.files.map FileRecord.id
  induction s.files with
  | nil => rfl
  | cons f fs ih =>
    simp only [List.map_cons]
    rw [ih]
    by_cases h : f.id = i
    · simp [h, applyUpdates]
    · simp [h]

theorem WF_updateFile (c : Codec) {s : Store} (hWF : WF c s) (i : Nat)
    (u : FileUpdates) : WF c (updateFile s i u) := by
  refine ⟨?_, ?_, hWF.vfidLt, fun fid => hWF.wfl fid⟩
  · rw [updateFile_ids]; exact hWF.fidsNodup
  · intro f hf
    show f.id < s.nextId
    obtain ⟨f0, hf0, hmap⟩ := List.mem_map.mp hf
    have hid : f.id = f0.id := by
      by_cases h : f0.id = i
      · rw [← hmap]; simp [h, applyUpdates]
      · rw [← hmap]; simp [h]
    rw [hid]
    exact hWF.fidsLt f0 hf0

theorem nodup_map_append_fresh {l : List FileRecord} {f : FileRecord}
    (h : (l.map FileRecord.id).Nodup) (hfresh : ∀ g ∈ l, g.id ≠ f.id) :
    ((l ++ [f]).map FileRecord.id).Nodup := by
  rw [List.map_append]
  rw [List.nodup_append]
  refine ⟨h, List.nodup_singleton _, ?_⟩
  intro a ha
  obtain ⟨g, hg, rfl⟩ := List.mem_map.mp ha
  simp
  exact hfresh g hg

theorem WF_insertFile (c : Codec) {s : Store} (hWF : WF c s) (p : String)
    (now : Nat) : WF c (insertFile s ⟨s.nextId, p, none, now, now⟩) := by
  refine ⟨?_, ?_, ?_, fun fid => hWF.wfl fid⟩
  · exact nodup_map_append_fresh hWF.fidsNodup
      (fun g hg => Nat.ne_of_lt (hWF.fidsLt g hg))
  · intro f hf
    rcases List.mem_append.mp hf with hfl | hfr
    · exact Nat.lt_succ_of_lt (hWF.fidsLt f hfl)
    · rw [List.mem_singleton.mp hfr]
      exact Nat.lt_succ_self _
  · intro v hv
    exact Nat.lt_succ_of_lt (hWF.vfidLt v hv)

theorem WF_insert_first (c : Codec) {s1 : Store} (hWF1 : WF c s1)
    {fid now : Nat} {cnt : String} (hfid : fid < s1.nextId)
    (hempty : fileVersions s1 fid = []) :
    WF c (insertVersion s1 ⟨s1.nextId, fid, true, cnt, now⟩) := by
  refine ⟨hWF1.fidsNodup, ?_, ?_, ?_⟩
  · intro f hf
    exact Nat.lt_succ_of_lt (hWF1.fidsLt f hf)
  · intro v hv
    rcases List.mem_append.mp hv with hvl | hvr
    · exact Nat.lt_succ_of_lt (hWF1.vfidLt v hvl)
    · rw [List.mem_singleton.mp hvr]
      exact Nat.lt_succ_of_lt hfid
  · intro gid
    rw [fileVersions_insertVersion]
    by_cases hg : fid = gid
    · subst hg
      rw [hempty, if_pos rfl, List.nil_append]
      exact WFL_singleton_cp c rfl
    · rw [if_neg hg, List.append_nil]
      exact hWF1.wfl gid

theorem WF_insert_diff (c : Codec) {s1 : Store} (hWF1 : WF c s1)
    {fid now : Nat} {data : String} (hfid : fid < s1.nextId)
    (hne : fileVersions s1 fid ≠ [])
    (hclk : ∀ v ∈ fileVersions s1 fid, v.created_at < now) :
    WF c (insertVersion s1 ⟨s1.nextId, fid, false, data, now⟩) := by
  refine ⟨hWF1.fidsNodup, ?_, ?_, ?_⟩
  · intro f hf
    exact Nat.lt_succ_of_lt (hWF1.fidsLt f hf)
  · intro v hv
    rcases List.mem_append.mp hv with hvl | hvr
    · exact Nat.lt_succ_of_lt (hWF1.vfidLt v hvl)
    · rw [List.mem_singleton.mp hvr]
      exact Nat.lt_succ_of_lt hfid
  · intro gid
    rw [fileVersions_insertVersion]
    by_cases hg : fid = gid
    · subst hg
      rw [if_pos rfl]
      exact WFL_append_diff c (hWF1.wfl fid) hne rfl hclk
    · rw [if_neg hg, List.append_nil]
      exact hWF1.wfl gid

theorem WF_insert_cp (c : Codec) {s1 : Store} (hWF1 : WF c s1)
    {fid now : Nat} {cnt : String} (hfid : fid < s1.nextId)
    (hne : fileVersions s1 fid ≠ [])
    (hclk : ∀ v ∈ fileVersions s1 fid, v.created_at < now)
    (hdata : flatReconL c (fileVersions s1 fid) now = some cnt) :
    WF c (insertVersion s1 ⟨s1.nextId, fid, true, cnt, now⟩) := by
  refine ⟨hWF1.fidsNodup, ?_, ?_, ?_⟩
  · intro f hf
    exact Nat.lt_succ_of_lt (hWF1.fidsLt f hf)
  · intro v hv
    rcases List.mem_append.mp hv with hvl | hvr
    · exact Nat.lt_succ_of_lt (hWF1.vfidLt v hvl)
    · rw [List.mem_singleton.mp hvr]
      exact Nat.lt_succ_of_lt hfid
  · intro gid
    rw [fileVersions_insertVersion]
    by_cases hg : fid = gid
    · subst hg
      rw [if_pos rfl]
      exact WFL_append_cp c (hWF1.wfl fid) hne rfl hclk hdata
    · rw [if_neg hg, List.append_nil]
      exact hWF1.wfl gid

theorem getFileByPath_mem {s : Store} {p : String} {f : FileRecord}
    (h : getFileByPath s p = some f) : f ∈ s.files :=
  List.mem_of_find?_eq_some h

theorem clockAhead_file {s : Store} {now : Nat} (h : ClockAhead s now)
    (fid : Nat) : ∀ v ∈ fileVersions s fid, v.created_at < now :=
  fun v hv => h v (List.mem_filter.mp hv).1

theorem getLatestVersion_some_ne_nil {s1 : Store} {fid : Nat} {lv : VersionRecord}
    (hl : getLatestVersion s1 fid = some lv) : fileVersions s1 fid ≠ [] := by
  intro hnil
  rw [getLatestVersion, hnil] at hl
  exact absurd hl (by simp [latestBy])

/-- The ingest path keeps the store well-formed whenever the clock reading
is strictly ahead of every stored timestamp. -/
theorem save_preserves (c : Codec) {s : Store} {now : Nat} {p cnt : String}
    {s' : Store} (hWF : WF c s) (hclk : ClockAhead s now)
    (hs : save c s now p cnt = some s') : WF c s' := by
  cases hf : getFileByPath s p with
  | none =>
    simp only [save, hf] at hs
    have hemp : fileVersions (insertFile s ⟨s.nextId, p, none, now, now⟩)
        s.nextId = [] := by
      rw [fileVersions_insertFile]
      rw [show fileVersions s s.nextId =
        s.versions.filter (fun v => decide (v.file_id = s.nextId)) from rfl]
      rw [List.filter_eq_nil_iff]
      intro v hv
      have := hWF.vfidLt v hv
      simp
      omega
    split at hs
    · have hs2 := Option.some.inj hs
      rw [← hs2]
      exact WF_updateFile c (WF_insert_first c (WF_insertFile c hWF p now)
        (Nat.lt_succ_self _) hemp) _ _
    · rename_i lv hl
      rw [show getLatestVersion (insertFile s ⟨s.nextId, p, none, now, now⟩)
        s.nextId = none from (latestBy_eq_none_iff _).mpr hemp] at hl
      exact absurd hl (by simp)
  | some file =>
    have hfid : file.id < s.nextId := hWF.fidsLt file (getFileByPath_mem hf)
    simp only [save, hf] at hs
    by_cases hdel : file.deleted_at ≠ none
    · rw [if_pos hdel] at hs
      have hWF1 : WF c (updateFile s file.id
          { deleted_at := some none, updated_at := some now }) :=
        WF_updateFile c hWF _ _
      split at hs
      · rename_i hl
        have hemp := (latestBy_eq_none_iff _).mp hl
        have hs2 := Option.some.inj hs
        rw [← hs2]
        exact WF_updateFile c (WF_insert_first c hWF1 hfid hemp) _ _
      · rename_i lv hl
        split at hs
        · exact absurd hs (by simp)
        · rename_i prev hr
          split at hs
          · have hs2 := Option.some.inj hs
            rw [← hs2]
            exact hWF1
          · have hs2 := Option.some.inj hs
            rw [← hs2]
            exact WF_updateFile c (WF_insert_diff c hWF1 hfid
              (getLatestVersion_some_ne_nil hl)
              (clockAhead_file hclk file.id)) _ _
    · rw [if_neg hdel] at hs
      split at hs
      · rename_i hl
        have hemp := (latestBy_eq_none_iff _).mp hl
        have hs2 := Option.some.inj hs
        rw [← hs2]
        exact WF_updateFile c (WF_insert_first c hWF hfid hemp) _ _
      · rename_i lv hl
        split at hs
        · exact absurd hs (by simp)
        · rename_i prev hr
          split at hs
          · have hs2 := Option.some.inj hs
            rw [← hs2]
            exact hWF
          · have hs2 := Option.some.inj hs
            rw [← hs2]
            exact WF_updateFile c (WF_insert_diff c hWF hfid
              (getLatestVersion_some_ne_nil hl)
              (clockAhead_file hclk file.id)) _ _

theorem getFileById_spec {s : Store} {fid : Nat} {file : FileRecord}
    (h : getFileById s fid = some file) : file ∈ s.files ∧ file.id = fid := by
  refine ⟨List.mem_of_find?_eq_some h, ?_⟩
  have := List.find?_some h
  simpa using this

theorem fileVersions_delete_other {s : Store} {fid keepId gid : Nat}
    (hg : gid ≠ fid) :
    fileVersions (deleteNonFirstCheckpoints s fid keepId) gid =
    fileVersions s gid := by
  rw [deleteNonFirstCheckpoints]
  cases hfind : s.versions.find? (fun v => decide (v.file_id = fid)) with
  | none => rfl
  | some first =>
    show (s.versions.filter _).filter _ = s.versions.filter _
    rw [List.filter_filter]
    apply List.filter_congr
    intro v _
    by_cases hv : v.file_id = gid
    · have hvf : (v.file_id = fid) = False := by
        simp
        rw [hv]
        exact hg
      simp [hv, hvf]
      exact Or.inl (Or.inl (Or.inl hg))
    · simp [hv]

theorem fileVersions_delete_self (s : Store) (fid keepId : Nat)
    {first : VersionRecord}
    (hfirst : (fileVersions s fid).head? = some first) :
    fileVersions (deleteNonFirstCheckpoints s fid keepId) fid =
    (fileVersions s fid).filter (fun v =>
      !(decide (v.file_id = fid) && v.is_checkpoint &&
        !(decide (v.id = first.id)) && !(decide (v.id = keepId)))) := by
  rw [deleteNonFirstCheckpoints, find?_eq_head?_filter]
  rw [show ((s.versions.filter fun v => decide (v.file_id = fid)).head?) =
    (fileVersions s fid).head? from rfl, hfirst]
  show (s.versions.filter _).filter _ = (s.versions.filter _).filter _
  rw [List.filter_filter, List.filter_filter]
  apply List.filter_congr
  intro v _
  rw [Bool.and_comm]

theorem getLatestVersion_le {s : Store} {fid : Nat} {lv : VersionRecord}
    (hl : getLatestVersion s fid = some lv) :
    lv ∈ fileVersions s fid ∧ ∀ x ∈ fileVersions s fid, x.created_at ≤ lv.created_at :=
  ⟨latestBy_mem hl, latestBy_max hl⟩

/-- `createSnapshotIfNeeded` keeps the store well-formed, leaves the
flattened reconstruction of every file at every timestamp unchanged, leaves
other files' version lists untouched, and preserves each file's first
version. -/
theorem snapshot_preserves (c : Codec) {s : Store} {now fid : Nat} {s' : Store}
    {b : Bool} (hWF : WF c s)
    (hclk : ∀ v ∈ fileVersions s fid, v.created_at < now)
    (hstep : createSnapshotIfNeeded c s now fid = some (s', b)) :
    WF c s' ∧ (∀ gid t, flatRecon c s' gid t = flatRecon c s gid t) ∧
      (∀ gid, gid ≠ fid → fileVersions s' gid = fileVersions s gid) ∧
      (∀ gid v0, (fileVersions s gid).head? = some v0 →
        (fileVersions s' gid).head? = some v0) := by
  have hid : s' = s → WF c s' ∧ (∀ gid t, flatRecon c s' gid t = flatRecon c s gid t) ∧
      (∀ gid, gid ≠ fid → fileVersions s' gid = fileVersions s gid) ∧
      (∀ gid v0, (fileVersions s gid).head? = some v0 →
        (fileVersions s' gid).head? = some v0) := by
    intro he
    subst he
    exact ⟨hWF, fun _ _ => rfl, fun _ _ => rfl, fun _ _ h => h⟩
  rw [createSnapshotIfNeeded] at hstep
  split at hstep
  · exact hid (congrArg Prod.fst (Option.some.inj hstep)).symm
  · rename_i file hfile
    split at hstep
    · exact hid (congrArg Prod.fst (Option.some.inj hstep)).symm
    · split at hstep
      · exact hid (congrArg Prod.fst (Option.some.inj hstep)).symm
      · rename_i lv hl
        split at hstep
        · exact hid (congrArg Prod.fst (Option.some.inj hstep)).symm
        · rename_i hlvcp
          split at hstep
          · exact absurd hstep (by simp)
          · rename_i content hr
            -- the consolidation branch
            have hfid : fid < s.nextId := by
              obtain ⟨hmem, hfe⟩ := getFileById_spec hfile
              rw [← hfe]
              exact hWF.fidsLt file hmem
            obtain ⟨hlvmem, hlvmax⟩ := getLatestVersion_le hl
            have hne : fileVersions s fid ≠ [] := getLatestVersion_some_ne_nil hl
            have hlvnow : lv.created_at < now := hclk lv hlvmem
            have hbound : ∀ v ∈ fileVersions s fid, v.created_at ≤ lv.created_at :=
              hlvmax
            -- the new checkpoint's payload is the flattened reconstruction at `now`
            have hrecflat : flatReconL c (fileVersions s fid) lv.created_at =
                some content := by
              rw [← hr, recon_eq_flat c s fid (hWF.wfl fid)]
              rfl
            have hdata : flatReconL c (fileVersions s fid) now = some content := by
              rw [flatReconL_congr_le c _ lv.created_at now (le_of_lt hlvnow) hbound]
              exact hrecflat
            have hWFK : WF c (insertVersion s ⟨s.nextId, fid, true, content, now⟩) :=
              WF_insert_cp c hWF hfid hne hclk hdata
            set K : VersionRecord := ⟨s.nextId, fid, true, content, now⟩ with hK
            set sK := insertVersion s K with hsK
            have hfvK : fileVersions sK fid = fileVersions s fid ++ [K] := by
              rw [hsK, fileVersions_insertVersion, if_pos rfl]
            obtain ⟨v0, restL, hL⟩ : ∃ v0 restL, fileVersions s fid = v0 :: restL := by
              cases hcl : fileVersions s fid with
              | nil => exact absurd hcl hne
              | cons w ws => exact ⟨w, ws, rfl⟩
            have hheadK : (fileVersions sK fid).head? = some v0 := by
              rw [hfvK, head?_append_of_ne_nil _ hne, hL]
              rfl
            -- the pruning keeps every diff, the first version and K
            have hkeepdiff : ∀ v : VersionRecord, v.is_checkpoint = false →
                (!(decide (v.file_id = fid) && v.is_checkpoint &&
                  !(decide (v.id = v0.id)) && !(decide (v.id = K.id)))) = true := by
              intro v hv
              simp [hv]
            have hkeephead : ∀ w : VersionRecord, (fileVersions sK fid).head? = some w →
                (!(decide (w.file_id = fid) && w.is_checkpoint &&
                  !(decide (w.id = v0.id)) && !(decide (w.id = K.id)))) = true := by
              intro w hw
              rw [hheadK] at hw
              cases hw
              simp
            obtain ⟨hWFLdel, hflatdel⟩ := WFL_filter_keep c (hWFK.wfl fid)
              (fun v => !(decide (v.file_id = fid) && v.is_checkpoint &&
                !(decide (v.id = v0.id)) && !(decide (v.id = K.id))))
              hkeepdiff hkeephead
            set s2 := deleteNonFirstCheckpoints sK fid K.id with hs2
            have hfv2 : fileVersions s2 fid = (fileVersions sK fid).filter
                (fun v => !(decide (v.file_id = fid) && v.is_checkpoint &&
                  !(decide (v.id = v0.id)) && !(decide (v.id = K.id)))) := by
              rw [hs2]
              exact fileVersions_delete_self sK fid K.id hheadK
            have hfv2other : ∀ gid, gid ≠ fid → fileVersions s2 gid =
                fileVersions s gid := by
              intro gid hg
              rw [hs2, fileVersions_delete_other hg, hsK,
                fileVersions_insertVersion]
              rw [if_neg (fun hh => hg hh.symm), List.append_nil]
            have hnext2 : s2.nextId = sK.nextId := by
              rw [hs2, deleteNonFirstCheckpoints]
              cases sK.versions.find? (fun v => decide (v.file_id = fid)) <;> rfl
            have hfiles2 : s2.files = sK.files := by
              rw [hs2, deleteNonFirstCheckpoints]
              cases sK.versions.find? (fun v => decide (v.file_id = fid)) <;> rfl
            have hWF2 : WF c s2 := by
              refine ⟨?_, ?_, ?_, ?_⟩
              · rw [hfiles2]; exact hWFK.fidsNodup
              · intro f hf
                rw [hnext2]
                exact hWFK.fidsLt f (by rw [← hfiles2]; exact hf)
              · intro v hv
                rw [hnext2]
                refine hWFK.vfidLt v ?_
                have hsub : s2.versions.Sublist sK.versions := by
                  rw [hs2, deleteNonFirstCheckpoints]
                  cases sK.versions.find? (fun v => decide (v.file_id = fid))
                  · exact List.Sublist.refl _
                  · exact List.filter_sublist _
                exact hsub.mem hv
              · intro gid
                by_cases hg : gid = fid
                · subst hg
                  rw [hfv2]
                  exact hWFLdel
                · rw [hfv2other gid hg]
                  exact hWF.wfl gid
            have hflat2 : ∀ gid t, flatRecon c s2 gid t = flatRecon c s gid t := by
              intro gid t
              by_cases hg : gid = fid
              · subst hg
                rw [flatRecon, hfv2, hflatdel t, hfvK,
                  flatReconL_append c hne t (Or.inl rfl)]
                rfl
              · rw [flatRecon, hfv2other gid hg]
                rfl
            have hs' : s' = updateFile s2 fid { updated_at := some now } := by
              have := Option.some.inj hstep
              exact (congrArg Prod.fst this).symm
            subst hs'
            refine ⟨WF_updateFile c hWF2 _ _, ?_, ?_, ?_⟩
            · intro gid t
              rw [show flatRecon c (updateFile s2 fid { updated_at := some now })
                gid t = flatRecon c s2 gid t from rfl]
              exact hflat2 gid t
            · intro gid hg
              rw [show fileVersions (updateFile s2 fid { updated_at := some now })
                gid = fileVersions s2 gid from rfl]
              exact hfv2other gid hg
            · intro gid w0 hw0
              rw [show fileVersions (updateFile s2 fid { updated_at := some now })
                gid = fileVersions s2 gid from rfl]
              by_cases hg : gid = fid
              · subst hg
                rw [hL] at hw0
                have hw0v : v0 = w0 := by simpa using hw0
                subst hw0v
                rw [hfv2, hfvK, hL, List.cons_append,
                  List.filter_cons_of_pos (by simp)]
                rfl
              · rw [hfv2other gid hg]
                exact hw0

/-- One full daemon pass preserves well-formedness, the flattened
reconstruction of every file at every timestamp, and every file's first
version. -/
theorem daemonPass_spec (c : Codec) (now : Nat) :
    ∀ (fs : List FileRecord) (s s' : Store), WF c s →
    (fs.map FileRecord.id).Nodup →
    (∀ f ∈ fs, ∀ v ∈ fileVersions s f.id, v.created_at < now) →
    daemonPass c now fs s = some s' →
    WF c s' ∧ (∀ gid t, flatRecon c s' gid t = flatRecon c s gid t) ∧
      (∀ gid v0, (fileVersions s gid).head? = some v0 →
        (fileVersions s' gid).head? = some v0) := by
  intro fs
  induction fs with
  | nil =>
    intro s s' hWF _ _ hp
    have hss : s = s' := Option.some.inj hp
    subst hss
    exact ⟨hWF, fun _ _ => rfl, fun _ _ h => h⟩
  | cons f fs ih =>
    intro s s' hWF hnodup hclk hp
    rw [daemonPass] at hp
    by_cases hdel : f.deleted_at ≠ none
    · rw [if_pos hdel] at hp
      exact ih s s' hWF (List.nodup_cons.mp hnodup).2
        (fun g hg => hclk g (List.mem_cons_of_mem _ hg)) hp
    · rw [if_neg hdel] at hp
      cases hcs : createSnapshotIfNeeded c s now f.id with
      | none => rw [hcs] at hp; exact absurd hp (by simp)
      | some r =>
        rw [hcs] at hp
        have hcs2 : createSnapshotIfNeeded c s now f.id = some (r.1, r.2) := by
          rw [hcs]
        obtain ⟨hWF1, hflat1, hother1, hhead1⟩ :=
          snapshot_preserves c hWF (hclk f (List.mem_cons_self _ _)) hcs2
        have hfresh : ∀ g ∈ fs, g.id ≠ f.id := by
          intro g hg
          have hn := List.nodup_cons.mp hnodup
          intro he
          exact hn.1 (he ▸ List.mem_map_of_mem FileRecord.id hg)
        obtain ⟨hWF2, hflat2, hhead2⟩ := ih r.1 s' hWF1
          (List.nodup_cons.mp hnodup).2
          (fun g hg v hv => hclk g (List.mem_cons_of_mem _ hg) v
            (by rw [← hother1 g.id (hfresh g hg)]; exact hv)) hp
        refine ⟨hWF2, ?_, ?_⟩
        · intro gid t
          rw [hflat2 gid t, hflat1 gid t]
        · intro gid v0 hv0
          exact hhead2 gid v0 (hhead1 gid v0 hv0)

theorem restore_preserves (c : Codec) {s : Store} {now : Nat} {p : String}
    {t : Nat} {s' : Store} {out : String} (hWF : WF c s)
    (hr : restore c s now p t = some (s', out)) : WF c s' := by
  rw [restore] at hr
  split at hr
  · exact absurd hr (by simp)
  · split at hr
    · exact absurd hr (by simp)
    · split at hr
      · have h2 := Option.some.inj hr
        injection h2 with h1 _
        rw [← h1]
        exact WF_updateFile c hWF _ _
      · have h2 := Option.some.inj hr
        injection h2 with h1 _
        rw [← h1]
        exact hWF

theorem markDeleted_preserves (c : Codec) {s : Store} (now : Nat) (p : String)
    (hWF : WF c s) : WF c (markDeleted s now p) := by
  rw [markDeleted]
  split
  · exact hWF
  · split
    · exact WF_updateFile c hWF _ _
    · exact hWF

theorem WF_empty (c : Codec) : WF c emptyStore := by
  refine ⟨List.nodup_nil, ?_, ?_, ?_⟩
  · intro f hf; simp [emptyStore] at hf
  · intro v hv; simp [emptyStore] at hv
  · intro fid
    rw [show fileVersions emptyStore fid = [] from rfl]
    exact WFL_nil c

/-- The states reachable from the empty store by the engine's operations,
each `save` and daemon pass observing a wall-clock reading strictly after
every stored version timestamp. -/
inductive Reach (c : Codec) : Store → Prop where
  | init : Reach c emptyStore
  | saveStep : ∀ {s s' : Store} {now : Nat} {p cnt : String}, Reach c s →
      ClockAhead s now → save c s now p cnt = some s' → Reach c s'
  | daemonStep : ∀ {s s' : Store} {now : Nat}, Reach c s → ClockAhead s now →
      runDaemon c s now = some s' → Reach c s'
  | restoreStep : ∀ {s s' : Store} {now : Nat} {p : String} {t : Nat}
      {out : String}, Reach c s → restore c s now p t = some (s', out) →
      Reach c s'
  | deleteStep : ∀ {s : Store} {now : Nat} {p : String}, Reach c s →
      Reach c (markDeleted s now p)

/-- Every reachable store is well-formed. -/
theorem reach_WF (c : Codec) {s : Store} (h : Reach c s) : WF c s := by
  induction h with
  | init => exact WF_empty c
  | saveStep _ hclk hsave ih => exact save_preserves c ih hclk hsave
  | daemonStep _ hclk hrun ih =>
    exact (daemonPass_spec c _ _ _ _ ih ih.fidsNodup
      (fun f _ v hv => hclk v (List.mem_filter.mp hv).1) hrun).1
  | restoreStep _ hres ih => exact restore_preserves c ih hres
  | deleteStep _ ih => exact markDeleted_preserves c _ _ ih

/-! ### Supporting lemmas for the claim theorems -/

theorem head?_mem {l : List VersionRecord} {v : VersionRecord}
    (h : l.head? = some v) : v ∈ l := by
  cases l with
  | nil => simp at h
  | cons w ws =>
    have : w = v := by simpa using h
    rw [← this]
    exact List.mem_cons_self _ _

theorem head?_some_ne_nil {l : List VersionRecord} {v : VersionRecord}
    (h : l.head? = some v) : l ≠ [] := by
  intro hnil
  rw [hnil] at h
  simp at h

theorem latestBy_ne_none {l : List VersionRecord} (h : l ≠ []) :
    latestBy l ≠ none := by
  intro hn
  exact h ((latestBy_eq_none_iff l).mp hn)

theorem save_versions_shape (c : Codec) {s : Store} {now : Nat} {p cnt : String}
    {s' : Store} (hs : save c s now p cnt = some s') :
    s'.versions = s.versions ∨ ∃ v : VersionRecord, s'.versions = s.versions ++ [v] := by
  cases hf : getFileByPath s p with
  | none =>
    simp only [save, hf] at hs
    split at hs
    · right
      exact ⟨_, by rw [← Option.some.inj hs]; rfl⟩
    · split at hs
      · exact absurd hs (by simp)
      · split at hs
        · left
          exact (congrArg Store.versions (Option.some.inj hs)).symm
        · right
          exact ⟨_, by rw [← Option.some.inj hs]; rfl⟩
  | some file =>
    simp only [save, hf] at hs
    by_cases hdel : file.deleted_at ≠ none
    · rw [if_pos hdel] at hs
      split at hs
      · right
        exact ⟨_, by rw [← Option.some.inj hs]; rfl⟩
      · split at hs
        · exact absurd hs (by simp)
        · split at hs
          · left
            exact (congrArg Store.versions (Option.some.inj hs)).symm
          · right
            exact ⟨_, by rw [← Option.some.inj hs]; rfl⟩
    · rw [if_neg hdel] at hs
      split at hs
      · right
        exact ⟨_, by rw [← Option.some.inj hs]; rfl⟩
      · split at hs
        · exact absurd hs (by simp)
        · split at hs
          · left
            exact (congrArg Store.versions (Option.some.inj hs)).symm
          · right
            exact ⟨_, by rw [← Option.some.inj hs]; rfl⟩

theorem restore_versions (c : Codec) {s : Store} {now : Nat} {p : String}
    {t : Nat} {s' : Store} {out : String}
    (hr : restore c s now p t = some (s', out)) : s'.versions = s.versions := by
  rw [restore] at hr
  split at hr
  · exact absurd hr (by simp)
  · split at hr
    · exact absurd hr (by simp)
    · split at hr
      · have h2 := Option.some.inj hr
        injection h2 with h1 _
        rw [← h1]
        rfl
      · have h2 := Option.some.inj hr
        injection h2 with h1 _
        rw [← h1]

theorem markDeleted_versions (s : Store) (now : Nat) (p : String) :
    (markDeleted s now p).versions = s.versions := by
  rw [markDeleted]
  split
  · rfl
  · split <;> rfl

theorem fileVersions_of_versions_eq {s s' : Store}
    (h : s'.versions = s.versions) (gid : Nat) :
    fileVersions s' gid = fileVersions s gid := by
  rw [fileVersions, fileVersions, h]

theorem fileVersions_of_versions_append {s s' : Store} {v : VersionRecord}
    (h : s'.versions = s.versions ++ [v]) (gid : Nat) :
    fileVersions s' gid = fileVersions s gid ++
      (if v.file_id = gid then [v] else []) := by
  rw [fileVersions, fileVersions, h, List.filter_append]
  by_cases hv : v.file_id = gid <;> simp [hv]

/-! ### Claim C2: consolidation preserves history -/

/-- C2: over every store reachable by the engine's operations, one
snapshot-daemon pass run at a clock reading `now` strictly after every
stored version leaves `reconstructVersion` unchanged at every timestamp
that had a version at or before it prior to the pass. -/
theorem c2_consolidation_preserves (c : Codec) {s s' : Store} {now : Nat}
    (hreach : Reach c s) (hclk : ClockAhead s now)
    (hrun : runDaemon c s now = some s') (fid t : Nat)
    (_hhad : ∃ v ∈ s.versions, v.file_id = fid ∧ v.created_at ≤ t) :
    reconstructVersion c s' fid t = reconstructVersion c s fid t := by
  have hWF := reach_WF c hreach
  obtain ⟨hWF', hflat, _⟩ := daemonPass_spec c now s.files s s' hWF hWF.fidsNodup
    (fun f _ v hv => hclk v (List.mem_filter.mp hv).1) hrun
  rw [recon_eq_flat c s' fid (hWF'.wfl fid), recon_eq_flat c s fid (hWF.wfl fid)]
  exact hflat fid t

/-! ### Claim C4: first-checkpoint invariant -/

/-- C4: in every reachable store, each file's first version is a checkpoint;
`getNearestCheckpoint` is non-null at every timestamp at or after it; and
no save, daemon pass, or restore removes or displaces that first version. -/
theorem c4_first_checkpoint (c : Codec) {s : Store} (hreach : Reach c s)
    (fid : Nat) {v0 : VersionRecord}
    (h0 : (fileVersions s fid).head? = some v0) :
    v0.is_checkpoint = true ∧
    (∀ t, v0.created_at ≤ t → getNearestCheckpoint s fid t ≠ none) ∧
    (∀ now p cnt s', save c s now p cnt = some s' →
      (fileVersions s' fid).head? = some v0) ∧
    (∀ now s', ClockAhead s now → runDaemon c s now = some s' →
      (fileVersions s' fid).head? = some v0) ∧
    (∀ now p t s' out, restore c s now p t = some (s', out) →
      (fileVersions s' fid).head? = some v0) := by
  have hWF := reach_WF c hreach
  have hcp : v0.is_checkpoint = true := (hWF.wfl fid).firstCp v0 h0
  refine ⟨hcp, ?_, ?_, ?_, ?_⟩
  · intro t ht
    apply latestBy_ne_none
    apply List.ne_nil_of_mem (a := v0)
    exact List.mem_filter.mpr ⟨head?_mem h0, by simp [cpLe, hcp, ht]⟩
  · intro now p cnt s' hs
    rcases save_versions_shape c hs with heq | ⟨v, heq⟩
    · rw [fileVersions_of_versions_eq heq]
      exact h0
    · rw [fileVersions_of_versions_append heq,
        head?_append_of_ne_nil _ (head?_some_ne_nil h0)]
      exact h0
  · intro now s' hclk hrun
    exact (daemonPass_spec c now s.files s s' hWF hWF.fidsNodup
      (fun f _ v hv => hclk v (List.mem_filter.mp hv).1) hrun).2.2 fid v0 h0
  · intro now p t s' out hr
    rw [fileVersions_of_versions_eq (restore_versions c hr)]
    exact h0

/-! ### Claim C5: strictly-increasing timestamps -/

def c5chain : Option Store :=
  (save replaceCodec emptyStore 1 "p" "a").bind
    (fun s => save replaceCodec s 1 "p" "b")

def c5store : Store := c5chain.getD emptyStore

/-- C5 counterexample: two saves of different contents observing the same
clock reading (`Date.now()` returning the same millisecond twice) produce
two versions of the same file sharing `created_at = 1`; nothing in `save`
enforces strictly increasing timestamps. -/
theorem c5_counterexample :
    c5chain = some c5store ∧
    c5store.versions.map VersionRecord.file_id = [0, 0] ∧
    c5store.versions.map VersionRecord.created_at = [1, 1] := by
  refine ⟨rfl, rfl, rfl⟩

/-- C5 amended: provided every operation observes a clock reading strictly
after all stored version timestamps (the `Reach` side conditions), each
file's `created_at` values are strictly increasing in insertion order. -/
theorem c5_amended (c : Codec) {s : Store} (hreach : Reach c s) (fid : Nat) :
    ((fileVersions s fid).map VersionRecord.created_at).Pairwise (· < ·) :=
  List.pairwise_map.mpr ((reach_WF c hreach).wfl fid).mono

/-! ### Claim C6: reconstruction throws iff no base checkpoint -/

/-- C6: `reconstructVersion` fails (throws) exactly when no checkpoint
exists at or before the target timestamp; a constituent patch failing to
apply never causes a failure, since the fold keeps the codec's best-effort
output (`reconStep` uses the patched text whatever the result flags say). -/
theorem c6_throws_iff_no_checkpoint (c : Codec) (s : Store) (fid t : Nat) :
    reconstructVersion c s fid t = none ↔ getNearestCheckpoint s fid t = none := by
  rw [reconstructVersion]
  split
  · rename_i h
    simp [h]
  · rename_i cp h
    split
    · simp [h]
    · simp [h]

/-! ### Claim C3: idempotent no-op save -/

/-- On a tracked, non-soft-deleted file whose reconstructed latest content
equals the saved content, `save` returns the store completely unchanged. -/
theorem save_noop (c : Codec) {s : Store} {p cnt : String} {file : FileRecord}
    {lv : VersionRecord} (now : Nat)
    (hf : getFileByPath s p = some file) (hdel : file.deleted_at = none)
    (hl : getLatestVersion s file.id = some lv)
    (hrec : reconstructVersion c s file.id lv.created_at = some cnt) :
    save c s now p cnt = some s := by
  simp only [save, hf, hdel]
  rw [if_neg (by simp)]
  rw [hl]
  show (match reconstructVersion c s file.id lv.created_at with
    | none => none
    | some previousContent =>
      if previousContent = cnt then some s
      else some (updateFile (insertVersion s
        ⟨s.nextId, file.id, false, c.diff previousContent cnt, now⟩)
        file.id { updated_at := some now })) = some s
  rw [hrec]
  simp

theorem map_eq_self_of {α : Type} (f : α → α) (l : List α)
    (h : ∀ x ∈ l, f x = x) : l.map f = l := by
  induction l with
  | nil => rfl
  | cons x xs ih =>
    rw [List.map_cons, h x (List.mem_cons_self _ _),
      ih (fun y hy => h y (List.mem_cons_of_mem _ hy))]

theorem find?_append_none {α : Type} (p : α → Bool) {l1 : List α}
    (l2 : List α) (h : l1.find? p = none) :
    (l1 ++ l2).find? p = l2.find? p := by
  induction l1 with
  | nil => rfl
  | cons x xs ih =>
    rw [List.cons_append]
    have hx : p x = false := by
      by_cases hp : p x
      · rw [List.find?_cons_of_pos _ hp] at h; exact absurd h (by simp)
      · simpa using hp
    rw [List.find?_cons_of_neg _ (by simp [hx])]
    rw [List.find?_cons_of_neg _ (by simp [hx])] at h
    exact ih h

/-- Anatomy of the first save of an untracked path: the exact stored file
record, version list and id counter. -/
theorem save_fresh (c : Codec) {s0 : Store} {p cnt : String} (now : Nat)
    (hf : getFileByPath s0 p = none)
    (hffresh : ∀ g ∈ s0.files, g.id ≠ s0.nextId)
    (hvfresh : ∀ v ∈ s0.versions, v.file_id ≠ s0.nextId) :
    ∃ s1, save c s0 now p cnt = some s1 ∧
      s1.files = s0.files ++ [⟨s0.nextId, p, none, now, now⟩] ∧
      s1.versions = s0.versions ++ [⟨s0.nextId + 1, s0.nextId, true, cnt, now⟩] ∧
      s1.nextId = s0.nextId + 2 := by
  have hemp : fileVersions (insertFile s0 ⟨s0.nextId, p, none, now, now⟩)
      s0.nextId = [] := by
    rw [fileVersions_insertFile]
    rw [show fileVersions s0 s0.nextId =
      s0.versions.filter (fun v => decide (v.file_id = s0.nextId)) from rfl]
    rw [List.filter_eq_nil_iff]
    intro v hv
    simpa using hvfresh v hv
  have hlat : getLatestVersion (insertFile s0 ⟨s0.nextId, p, none, now, now⟩)
      s0.nextId = none := (latestBy_eq_none_iff _).mpr hemp
  refine ⟨updateFile (insertVersion (insertFile s0 ⟨s0.nextId, p, none, now, now⟩)
      ⟨s0.nextId + 1, s0.nextId, true, cnt, now⟩) s0.nextId
      { updated_at := some now }, ?_, ?_, ?_, ?_⟩
  · simp only [save, hf]
    rw [hlat]
    rfl
  · show ((s0.files ++ [(⟨s0.nextId, p, none, now, now⟩ : FileRecord)]).map (fun f =>
      if f.id = s0.nextId then applyUpdates f { updated_at := some now } else f))
      = s0.files ++ [(⟨s0.nextId, p, none, now, now⟩ : FileRecord)]
    rw [List.map_append, map_eq_self_of _ s0.files
      (fun g hg => by rw [if_neg (hffresh g hg)])]
    simp [applyUpdates]
  · rfl
  · rfl

/-- First element of the C3 counterexample trace: one save of `"a"`. -/
def c3base : Store := (save replaceCodec emptyStore 1 "p" "a").getD emptyStore

/-- The file is then soft-deleted at time 2. -/
def c3deleted : Store := markDeleted c3base 2 "p"

/-- A further identical save at time 3. -/
def c3resaved : Option Store := save replaceCodec c3deleted 3 "p" "a"

/-- C3 counterexample: the tracked file's reconstructed latest content is
byte-identical to the saved content, and indeed no version row is inserted —
but because the file was soft-deleted, `save` clears `deleted_at` and bumps
`updated_at` from 2 to 3, contradicting the claim's "does not bump the
file's updated_at". -/
theorem c3_counterexample :
    getLatestVersion c3deleted 0 = some ⟨1, 0, true, "a", 1⟩ ∧
    reconstructVersion replaceCodec c3deleted 0 1 = some "a" ∧
    c3deleted.files.map FileRecord.updated_at = [2] ∧
    c3resaved.map (fun s => s.versions.length) = some 1 ∧
    c3resaved.map (fun s => s.files.map FileRecord.updated_at) = some [3] := by
  refine ⟨rfl, rfl, rfl, rfl, rfl⟩

/-- C3 amended: restricted to files that are not soft-deleted, a save of
byte-identical content performs no write at all (the store is unchanged, so
no version row and no `updated_at` bump); and for an untracked path, two
consecutive saves of the same content leave exactly one version stored. -/
theorem c3_amended (c : Codec) {s : Store} {p cnt : String} {file : FileRecord}
    {lv : VersionRecord} (now : Nat)
    (hf : getFileByPath s p = some file) (hdel : file.deleted_at = none)
    (hl : getLatestVersion s file.id = some lv)
    (hrec : reconstructVersion c s file.id lv.created_at = some cnt) :
    save c s now p cnt = some s ∧
    (∀ s0 : Store, getFileByPath s0 p = none →
      (∀ g ∈ s0.files, g.id ≠ s0.nextId) →
      (∀ v ∈ s0.versions, v.file_id ≠ s0.nextId) →
      ∀ now1 now2 s1 s2, save c s0 now1 p cnt = some s1 →
        save c s1 now2 p cnt = some s2 →
        ∃ f, getFileByPath s2 p = some f ∧ (fileVersions s2 f.id).length = 1) := by
  constructor
  · exact save_noop c now hf hdel hl hrec
  · intro s0 hf0 hffresh hvfresh now1 now2 s1 s2 hs1 hs2
    obtain ⟨s1', hs1', hfiles1, hvers1, hnext1⟩ :=
      save_fresh c now1 hf0 hffresh hvfresh
    rw [hs1'] at hs1
    have hs1eq : s1' = s1 := Option.some.inj hs1
    subst hs1eq
    set fnew : FileRecord := ⟨s0.nextId, p, none, now1, now1⟩ with hfnew
    set vnew : VersionRecord := ⟨s0.nextId + 1, s0.nextId, true, cnt, now1⟩
      with hvnew
    have hfind1 : getFileByPath s1' p = some fnew := by
      rw [getFileByPath, hfiles1, find?_append_none _ _ hf0]
      rw [List.find?_cons_of_pos _ (by simp [hfnew])]
    have hfv1 : fileVersions s1' s0.nextId = [vnew] := by
      rw [fileVersions, hvers1, List.filter_append]
      rw [show s0.versions.filter (fun v => decide (v.file_id = s0.nextId)) = []
        from List.filter_eq_nil_iff.mpr (fun v hv => by simpa using hvfresh v hv)]
      rw [List.nil_append]
      simp
    have hlat1 : getLatestVersion s1' s0.nextId = some vnew := by
      rw [getLatestVersion, hfv1]
      rfl
    have hrec1 : reconstructVersion c s1' s0.nextId vnew.created_at = some cnt := by
      rw [reconstructVersion_eq_reconList, hfv1]
      rw [show reconList c [vnew] vnew.created_at = some cnt from by
        rw [reconList]
        rw [show latestBy ([vnew].filter (cpLe vnew.created_at)) = some vnew from by
          rw [show [vnew].filter (cpLe vnew.created_at) = [vnew] from by
            simp [cpLe, hvnew]]
          rfl]
        simp]
    have hnoop : save c s1' now2 p cnt = some s1' := by
      have := save_noop c now2 hfind1
        (show fnew.deleted_at = none from rfl) hlat1 hrec1
      exact this
    rw [hnoop] at hs2
    have hs2eq : s1' = s2 := Option.some.inj hs2
    subst hs2eq
    exact ⟨fnew, hfind1, by rw [show fnew.id = s0.nextId from rfl, hfv1]; rfl⟩

/-! ### Claim C1: round-trip of save and reconstruct

The store produced by a chain of saves on one fresh path has an exact
shape: one file record with id 0, a checkpoint carrying the first content,
and one diff row per further save. -/

def mkVersions (c : Codec) : String → Nat → List (Nat × String) → List VersionRecord
  | _, _, [] => []
  | prev, k, e :: rest =>
    ⟨k, 0, false, c.diff prev e.2, e.1⟩ :: mkVersions c e.2 (k + 1) rest

def InvC1 (c : Codec) (p : String) (e0 : Nat × String)
    (r : List (Nat × String)) (s : Store) : Prop :=
  (∃ cr up, s.files = [⟨0, p, none, cr, up⟩]) ∧
  s.versions = ⟨1, 0, true, e0.2, e0.1⟩ :: mkVersions c e0.2 2 r ∧
  s.nextId = r.length + 2

theorem mkVersions_ts (c : Codec) :
    ∀ (r : List (Nat × String)) (prev : String) (k : Nat),
    (mkVersions c prev k r).map VersionRecord.created_at = r.map Prod.fst := by
  intro r
  induction r with
  | nil => intro prev k; rfl
  | cons e rest ih =>
    intro prev k
    rw [mkVersions, List.map_cons, List.map_cons, ih]

theorem mkVersions_fid (c : Codec) :
    ∀ (r : List (Nat × String)) (prev : String) (k : Nat),
    ∀ v ∈ mkVersions c prev k r, v.file_id = 0 := by
  intro r
  induction r with
  | nil => intro prev k v hv; simp [mkVersions] at hv
  | cons e rest ih =>
    intro prev k v hv
    rw [mkVersions] at hv
    rcases List.mem_cons.mp hv with rfl | hv2
    · rfl
    · exact ih e.2 (k + 1) v hv2

theorem mkVersions_diff (c : Codec) :
    ∀ (r : List (Nat × String)) (prev : String) (k : Nat),
    ∀ v ∈ mkVersions c prev k r, v.is_checkpoint = false := by
  intro r
  induction r with
  | nil => intro prev k v hv; simp [mkVersions] at hv
  | cons e rest ih =>
    intro prev k v hv
    rw [mkVersions] at hv
    rcases List.mem_cons.mp hv with rfl | hv2
    · rfl
    · exact ih e.2 (k + 1) v hv2

theorem mkVersions_append (c : Codec) :
    ∀ (r : List (Nat × String)) (prev : String) (k : Nat) (e : Nat × String),
    mkVersions c prev k (r ++ [e]) = mkVersions c prev k r ++
      [⟨k + r.length, 0, false, c.diff ((r.map Prod.snd).getLastD prev) e.2, e.1⟩] := by
  intro r
  induction r with
  | nil =>
    intro prev k e
    rw [List.nil_append, mkVersions, mkVersions, mkVersions]
    rfl
  | cons e1 rest ih =>
    intro prev k e
    rw [List.cons_append, mkVersions, mkVersions, ih e1.2 (k + 1) e,
      List.cons_append]
    rw [List.map_cons, List.getLastD_cons]
    rw [show k + 1 + rest.length = k + (rest.length + 1) by omega]
    rfl

theorem getLastD_mem {α : Type} : ∀ (l : List α) (d : α), l.getLastD d ∈ d :: l := by
  intro l
  induction l with
  | nil => intro d; simp
  | cons x xs ih =>
    intro d
    rw [List.getLastD_cons]
    rcases List.mem_cons.mp (ih x) with h | h
    · rw [h]
      exact List.mem_cons_of_mem _ (List.mem_cons_self _ _)
    · exact List.mem_cons_of_mem _ (List.mem_cons_of_mem _ h)

theorem getLastD_map_fst : ∀ (l : List (Nat × String)) (d : Nat × String),
    (l.map Prod.fst).getLastD d.1 = (l.getLastD d).1 := by
  intro l
  induction l with
  | nil => intro d; rfl
  | cons x xs ih =>
    intro d
    rw [List.map_cons, List.getLastD_cons, List.getLastD_cons, ih x]

theorem getLastD_map_snd : ∀ (l : List (Nat × String)) (d : Nat × String),
    (l.map Prod.snd).getLastD d.2 = (l.getLastD d).2 := by
  intro l
  induction l with
  | nil => intro d; rfl
  | cons x xs ih =>
    intro d
    rw [List.map_cons, List.getLastD_cons, List.getLastD_cons, ih x]

theorem mkVersions_getLastD_ts (c : Codec) :
    ∀ (r : List (Nat × String)) (prev : String) (k : Nat) (d : VersionRecord),
    ((mkVersions c prev k r).getLastD d).created_at =
      (r.map Prod.fst).getLastD d.created_at := by
  intro r
  induction r with
  | nil => intro prev k d; rfl
  | cons e rest ih =>
    intro prev k d
    rw [mkVersions, List.getLastD_cons, List.map_cons, List.getLastD_cons,
      ih e.2 (k + 1)]

theorem filter_mk_nil (c : Codec) :
    ∀ (r : List (Nat × String)) (prev : String) (k : Nat) (t : Nat),
    (∀ u ∈ r.map Prod.fst, t < u) →
    (mkVersions c prev k r).filter (isDiffLe t) = [] := by
  intro r
  induction r with
  | nil => intro prev k t _; rfl
  | cons e rest ih =>
    intro prev k t hb
    rw [mkVersions]
    rw [List.filter_cons_of_neg (by
      have := hb e.1 (by rw [List.map_cons]; exact List.mem_cons_self _ _)
      simp [isDiffLe, Nat.not_le.mpr this])]
    exact ih e.2 (k + 1) t (fun u hu => hb u (by
      rw [List.map_cons]; exact List.mem_cons_of_mem _ hu))

theorem applyDiffs_mk_filter (c : Codec) (hex : Codec.Exact c) :
    ∀ (r : List (Nat × String)) (prev : String) (k : Nat) (t : Nat) (cnt : String),
    (r.map Prod.fst).Pairwise (· < ·) → (t, cnt) ∈ r →
    applyDiffs c prev ((mkVersions c prev k r).filter (isDiffLe t)) = cnt := by
  intro r
  induction r with
  | nil => intro prev k t cnt _ hm; simp at hm
  | cons e1 rest ih =>
    intro prev k t cnt hp hm
    rw [List.map_cons] at hp
    have hhd := (List.pairwise_cons.mp hp).1
    have htl := (List.pairwise_cons.mp hp).2
    rw [mkVersions]
    rcases List.mem_cons.mp hm with he | hm2
    · have ht : e1.1 = t := by rw [← he]
      have hc : e1.2 = cnt := by rw [← he]
      rw [List.filter_cons_of_pos (by simp [isDiffLe, ht])]
      rw [filter_mk_nil c rest e1.2 (k + 1) t
        (fun u hu => ht ▸ hhd u hu)]
      rw [show applyDiffs c prev [⟨k, 0, false, c.diff prev e1.2, e1.1⟩] =
        (c.apply (c.diff prev e1.2) prev).1 from rfl, hex prev e1.2, hc]
    · have ht : e1.1 < t := hhd t (List.mem_map_of_mem Prod.fst hm2)
      rw [List.filter_cons_of_pos (by simp [isDiffLe, le_of_lt ht])]
      rw [show applyDiffs c prev (⟨k, 0, false, c.diff prev e1.2, e1.1⟩ ::
        (mkVersions c e1.2 (k + 1) rest).filter (isDiffLe t)) =
        applyDiffs c (c.apply (c.diff prev e1.2) prev).1
          ((mkVersions c e1.2 (k + 1) rest).filter (isDiffLe t)) from rfl]
      rw [hex prev e1.2]
      exact ih e1.2 (k + 1) t cnt htl hm2

theorem InvC1_versions_all_fid (c : Codec) {p : String} {e0 : Nat × String}
    {r : List (Nat × String)} {s : Store} (hinv : InvC1 c p e0 r s) :
    fileVersions s 0 = ⟨1, 0, true, e0.2, e0.1⟩ :: mkVersions c e0.2 2 r := by
  rw [fileVersions, hinv.2.1]
  rw [List.filter_cons_of_pos (by simp)]
  rw [List.filter_eq_self.mpr
    (fun v hv => by simp [mkVersions_fid c r e0.2 2 v hv])]

theorem pairwise_ts_of_map {l : List VersionRecord}
    (h : (l.map VersionRecord.created_at).Pairwise (· < ·)) :
    l.Pairwise ltTs := by
  induction l with
  | nil => exact List.Pairwise.nil
  | cons v vs ih =>
    rw [List.map_cons, List.pairwise_cons] at h
    exact List.pairwise_cons.mpr
      ⟨fun w hw => h.1 _ (List.mem_map_of_mem _ hw), ih h.2⟩

theorem InvC1_pairwise (c : Codec) {p : String} {e0 : Nat × String}
    {r : List (Nat × String)} {s : Store} (hinv : InvC1 c p e0 r s)
    (hmono : ((e0 :: r).map Prod.fst).Pairwise (· < ·)) :
    (fileVersions s 0).Pairwise ltTs := by
  rw [InvC1_versions_all_fid c hinv]
  have hts : (⟨1, 0, true, e0.2, e0.1⟩ :: mkVersions c e0.2 2 r).map
      VersionRecord.created_at = (e0 :: r).map Prod.fst := by
    rw [List.map_cons, mkVersions_ts, List.map_cons]
  have h2 := hmono
  rw [← hts] at h2
  exact pairwise_ts_of_map h2

theorem InvC1_WFL (c : Codec) {p : String} {e0 : Nat × String}
    {r : List (Nat × String)} {s : Store} (hinv : InvC1 c p e0 r s)
    (hmono : ((e0 :: r).map Prod.fst).Pairwise (· < ·)) :
    WFL c (fileVersions s 0) := by
  have hall := InvC1_versions_all_fid c hinv
  have hhd : ∀ u ∈ r.map Prod.fst, e0.1 < u := by
    rw [List.map_cons] at hmono
    exact (List.pairwise_cons.mp hmono).1
  refine ⟨InvC1_pairwise c hinv hmono, ?_, ?_⟩
  · intro v0 hv0
    rw [hall] at hv0
    have : (⟨1, 0, true, e0.2, e0.1⟩ : VersionRecord) = v0 := by simpa using hv0
    rw [← this]
  · intro v hv hvcp
    rw [hall] at hv
    rcases List.mem_cons.mp hv with rfl | hv2
    · rw [hall, flatReconL_cons, if_pos (le_refl _)]
      rw [List.filter_cons_of_neg (by simp [isDiffLe])]
      rw [filter_mk_nil c r e0.2 2 e0.1 hhd]
      rfl
    · rw [mkVersions_diff c r e0.2 2 v hv2] at hvcp
      exact absurd hvcp (by simp)

theorem reconInvC1 (c : Codec) (hex : Codec.Exact c) {p : String}
    {e0 : Nat × String} {r : List (Nat × String)} {s : Store}
    (hinv : InvC1 c p e0 r s)
    (hmono : ((e0 :: r).map Prod.fst).Pairwise (· < ·)) :
    ∀ e ∈ (e0 :: r), reconstructVersion c s 0 e.1 = some e.2 := by
  intro e he
  have hall := InvC1_versions_all_fid c hinv
  have hhd : ∀ u ∈ r.map Prod.fst, e0.1 < u := by
    rw [List.map_cons] at hmono
    exact (List.pairwise_cons.mp hmono).1
  have htl : (r.map Prod.fst).Pairwise (· < ·) := by
    rw [List.map_cons] at hmono
    exact (List.pairwise_cons.mp hmono).2
  rw [recon_eq_flat c s 0 (InvC1_WFL c hinv hmono) e.1, flatRecon, hall]
  rcases List.mem_cons.mp he with he0 | he2
  · rw [he0]
    rw [flatReconL_cons, if_pos (le_refl _)]
    rw [List.filter_cons_of_neg (by simp [isDiffLe])]
    rw [filter_mk_nil c r e0.2 2 e0.1 hhd]
    rfl
  · have h0e : e0.1 ≤ e.1 :=
      le_of_lt (hhd e.1 (List.mem_map_of_mem Prod.fst he2))
    rw [flatReconL_cons, if_pos h0e]
    rw [List.filter_cons_of_neg (by simp [isDiffLe])]
    rw [show e.1 = (e.1, e.2).1 from rfl, show e.2 = (e.1, e.2).2 from rfl]
    rw [applyDiffs_mk_filter c hex r e0.2 2 e.1 e.2 htl (by simpa using he2)]

theorem saveChain_inv (c : Codec) (hex : Codec.Exact c) (p : String)
    (e0 : Nat × String) :
    ∀ (rest done : List (Nat × String)) (s : Store),
    InvC1 c p e0 done s →
    ((e0 :: (done ++ rest)).map Prod.fst).Pairwise (· < ·) →
    ((e0 :: (done ++ rest)).map Prod.snd).Nodup →
    ∃ s', saveChain c p rest s = some s' ∧ InvC1 c p e0 (done ++ rest) s' := by
  intro rest
  induction rest with
  | nil =>
    intro done s hinv _ _
    refine ⟨s, rfl, ?_⟩
    rw [List.append_nil]
    exact hinv
  | cons e rest2 ih =>
    intro done s hinv hm hd
    obtain ⟨⟨cr, up, hfiles⟩, hvers, hnext⟩ := hinv
    have hinv' : InvC1 c p e0 done s := ⟨⟨cr, up, hfiles⟩, hvers, hnext⟩
    have hassoc : (done ++ [e]) ++ rest2 = done ++ e :: rest2 := by
      rw [List.append_assoc]
      rfl
    -- the trace prefix alone is strictly increasing
    have hsubpair : ((e0 :: done).map Prod.fst).Pairwise (· < ·) := by
      have hsub : (e0 :: done).Sublist (e0 :: (done ++ e :: rest2)) :=
        List.Sublist.cons₂ e0 (List.sublist_append_left done (e :: rest2))
      exact hm.sublist (hsub.map Prod.fst)
    set lastE := done.getLastD e0 with hlastE
    set v1 : VersionRecord := ⟨1, 0, true, e0.2, e0.1⟩ with hv1
    have hall : fileVersions s 0 = v1 :: mkVersions c e0.2 2 done :=
      InvC1_versions_all_fid c hinv'
    have hfindp : getFileByPath s p =
        some ⟨0, p, none, cr, up⟩ := by
      rw [getFileByPath, hfiles, List.find?_cons_of_pos _ (by simp)]
    set lv := (mkVersions c e0.2 2 done).getLastD v1 with hlv
    have hlat : getLatestVersion s 0 = some lv := by
      have hp : (v1 :: mkVersions c e0.2 2 done).Pairwise ltTs := by
        have h2 := InvC1_pairwise c hinv' hsubpair
        rw [hall] at h2
        exact h2
      rw [getLatestVersion, hall]
      exact latestBy_last hp v1 _ rfl
    have hlvts : lv.created_at = lastE.1 := by
      rw [hlv, mkVersions_getLastD_ts c done e0.2 2 v1]
      rw [show v1.created_at = e0.1 from rfl]
      exact getLastD_map_fst done e0
    have hrecon : reconstructVersion c s 0 lv.created_at = some lastE.2 := by
      rw [hlvts]
      exact reconInvC1 c hex hinv' hsubpair lastE (getLastD_mem done e0)
    have hne : lastE.2 ≠ e.2 := by
      have hmapsplit : ((e0 :: (done ++ e :: rest2)).map Prod.snd) =
          (e0.2 :: done.map Prod.snd) ++ (e.2 :: rest2.map Prod.snd) := by
        rw [List.map_cons, List.map_append, List.map_cons]
        rfl
      rw [hmapsplit] at hd
      have hdisj := (List.nodup_append.mp hd).2.2
      have hlmem : lastE.2 ∈ e0.2 :: done.map Prod.snd := by
        rw [hlastE, ← getLastD_map_snd done e0]
        exact getLastD_mem _ _
      intro hcontra
      exact hdisj hlmem (by rw [hcontra]; exact List.mem_cons_self _ _)
    set dnew : VersionRecord :=
      ⟨s.nextId, 0, false, c.diff lastE.2 e.2, e.1⟩ with hdnew
    set snew := updateFile (insertVersion s dnew) 0 { updated_at := some e.1 }
      with hsnew
    have hsave : save c s e.1 p e.2 = some snew := by
      simp only [save, hfindp]
      rw [if_neg (by simp)]
      rw [hlat]
      show (match reconstructVersion c s 0 lv.created_at with
        | none => none
        | some previousContent =>
          if previousContent = e.2 then some s
          else some (updateFile (insertVersion s
            ⟨s.nextId, 0, false, c.diff previousContent e.2, e.1⟩)
            0 { updated_at := some e.1 })) = some snew
      rw [hrecon]
      show (if lastE.2 = e.2 then some s
        else some (updateFile (insertVersion s
          ⟨s.nextId, 0, false, c.diff lastE.2 e.2, e.1⟩)
          0 { updated_at := some e.1 })) = some snew
      rw [if_neg hne]
    have hinvnew : InvC1 c p e0 (done ++ [e]) snew := by
      refine ⟨⟨cr, e.1, ?_⟩, ?_, ?_⟩
      · show ((insertVersion s dnew).files.map (fun f =>
          if f.id = 0 then applyUpdates f { updated_at := some e.1 } else f)) =
          [⟨0, p, none, cr, e.1⟩]
        rw [show (insertVersion s dnew).files = s.files from rfl, hfiles]
        simp [applyUpdates]
      · show (insertVersion s dnew).versions =
          v1 :: mkVersions c e0.2 2 (done ++ [e])
        rw [show (insertVersion s dnew).versions = s.versions ++ [dnew] from rfl,
          hvers, mkVersions_append c done e0.2 2 e, List.cons_append]
        rw [hdnew, hnext]
        rw [getLastD_map_snd done e0, ← hlastE]
        rw [show (2 : Nat) + done.length = done.length + 2 by omega]
      · show (insertVersion s dnew).nextId = (done ++ [e]).length + 2
        rw [show (insertVersion s dnew).nextId = s.nextId + 1 from rfl, hnext]
        rw [List.length_append]
        rfl
    have hm' : ((e0 :: ((done ++ [e]) ++ rest2)).map Prod.fst).Pairwise (· < ·) := by
      rw [hassoc]
      exact hm
    have hd' : ((e0 :: ((done ++ [e]) ++ rest2)).map Prod.snd).Nodup := by
      rw [hassoc]
      exact hd
    obtain ⟨s'', hchain2, hinv2⟩ := ih (done ++ [e]) snew hinvnew hm' hd'
    refine ⟨s'', ?_, ?_⟩
    · rw [saveChain, hsave]
      exact hchain2
    · rw [← hassoc]
      exact hinv2

/-- C1: starting from the empty store, a sequence of saves of one path at
strictly increasing clock readings with pairwise-distinct contents stores a
history from which, under an exact patch codec, `reconstructVersion` returns
each saved content at its save timestamp. -/
theorem c1_roundtrip (c : Codec) (hex : Codec.Exact c) (p : String)
    (e0 : Nat × String) (rest : List (Nat × String))
    (hmono : ((e0 :: rest).map Prod.fst).Pairwise (· < ·))
    (hdist : ((e0 :: rest).map Prod.snd).Nodup) :
    ∃ s, saveChain c p (e0 :: rest) emptyStore = some s ∧
      ∃ f, getFileByPath s p = some f ∧
        ∀ e ∈ (e0 :: rest), reconstructVersion c s f.id e.1 = some e.2 := by
  obtain ⟨s1, hs1, hfiles1, hvers1, hnext1⟩ :=
    @save_fresh c emptyStore p e0.2 e0.1 rfl
      (by intro g hg; simp [emptyStore] at hg)
      (by intro v hv; simp [emptyStore] at hv)
  have hinv1 : InvC1 c p e0 [] s1 := by
    refine ⟨⟨e0.1, e0.1, ?_⟩, ?_, ?_⟩
    · rw [hfiles1]
      rfl
    · rw [hvers1]
      rfl
    · rw [hnext1]
      rfl
  obtain ⟨s', hchain, hinv'⟩ := saveChain_inv c hex p e0 rest [] s1 hinv1
    (by rw [List.nil_append]; exact hmono) (by rw [List.nil_append]; exact hdist)
  have hinvKeep := hinv'
  obtain ⟨⟨cr, up, hfiles'⟩, _, _⟩ := hinv'
  refine ⟨s', ?_, ⟨0, p, none, cr, up⟩, ?_, ?_⟩
  · rw [saveChain, hs1]
    exact hchain
  · rw [getFileByPath, hfiles', List.find?_cons_of_pos _ (by simp)]
  · intro e he
    rw [show (⟨0, p, none, cr, up⟩ : FileRecord).id = 0 from rfl]
    rw [List.nil_append] at hinvKeep
    exact reconInvC1 c hex hinvKeep hmono e he

/-! ### Server-side claims C7-C10 -/

/-- Number of version rows with a given id in the server store. -/
def countVid (st : ServerStore) (i : Nat) : Nat :=
  (st.versions.filter (fun w => decide (w.id = i))).length

theorem versionExists_false_iff (st : ServerStore) (i : Nat) :
    versionExists st i = false ↔ ∀ w ∈ st.versions, w.id ≠ i := by
  rw [versionExists]
  rw [show (st.versions.any fun v => decide (v.id = i)) = false ↔
    ∀ w ∈ st.versions, ¬(decide (w.id = i) = true) from by
    rw [← Bool.not_eq_true, List.any_eq_true]; simp]
  simp

theorem countVid_zero_of_not_exists {st : ServerStore} {i : Nat}
    (h : versionExists st i = false) : countVid st i = 0 := by
  rw [countVid, List.filter_eq_nil_iff.mpr (fun w hw => by
    simp [(versionExists_false_iff st i).mp h w hw])]
  rfl

theorem versionExists_of_mem {st : ServerStore} {w : ServerVersionRecord}
    (hm : w ∈ st.versions) : versionExists st w.id = true := by
  rw [versionExists, List.any_eq_true]
  exact ⟨w, hm, by simp⟩

theorem countVid_insert (st : ServerStore) (w : ServerVersionRecord) (i : Nat) :
    countVid (sInsertVersion st w) i =
    countVid st i + (if w.id = i then 1 else 0) := by
  rw [countVid, countVid, show (sInsertVersion st w).versions =
    st.versions ++ [w] from rfl, List.filter_append, List.length_append]
  by_cases h : w.id = i <;> simp [h]

theorem syncStep_of_exists {now : Nat} {ctx : SyncContext} {st : ServerStore}
    {v : SyncVersionInput} (h : versionExists st v.id = true) :
    syncStep now ctx st v = st := by
  rw [syncStep, if_pos h]

theorem syncStep_versions_shape (now : Nat) (ctx : SyncContext)
    (st : ServerStore) (v : SyncVersionInput) :
    (syncStep now ctx st v).versions = st.versions ∨
    (versionExists st v.id = false ∧ ∃ w : ServerVersionRecord, w.id = v.id ∧
      (syncStep now ctx st v).versions = st.versions ++ [w]) := by
  rw [syncStep]
  by_cases h : versionExists st v.id = true
  · rw [if_pos h]
    exact Or.inl rfl
  · rw [if_neg h]
    right
    refine ⟨by simpa using h, ?_⟩
    cases getFileByVaultAndPath st ctx.vaultId v.file_path with
    | some file => exact ⟨_, rfl, rfl⟩
    | none =>
      cases sGetFileById st v.file_id with
      | some ex => exact ⟨_, rfl, rfl⟩
      | none => exact ⟨_, rfl, rfl⟩

theorem syncStep_count_preserved {now : Nat} {ctx : SyncContext}
    {st : ServerStore} {v : SyncVersionInput} (i : Nat)
    (h : versionExists st i = true) :
    countVid (syncStep now ctx st v) i = countVid st i ∧
    versionExists (syncStep now ctx st v) i = true := by
  rcases syncStep_versions_shape now ctx st v with heq | ⟨hnx, w, hw, heq⟩
  · constructor
    · rw [countVid, countVid, heq]
    · rw [versionExists, heq]
      exact h
  · have hwi : w.id ≠ i := by
      intro hcontra
      rw [hw] at hcontra
      rw [hcontra] at hnx
      rw [h] at hnx
      exact absurd hnx (by simp)
    constructor
    · rw [countVid, countVid, heq, List.filter_append, List.length_append]
      rw [show List.filter (fun w2 => decide (w2.id = i)) [w] = [] from by
        simp [hwi]]
      rfl
    · rw [versionExists, heq, List.any_append]
      rw [versionExists] at h
      rw [h]
      rfl

theorem syncLoop_synced (now : Nat) (ctx : SyncContext) :
    ∀ (batch : List SyncVersionInput) (st : ServerStore),
    (syncLoop now ctx st batch).1 = batch.map SyncVersionInput.id := by
  intro batch
  induction batch with
  | nil => intro st; rfl
  | cons v rest ih =>
    intro st
    rw [syncLoop, List.map_cons, ih]

theorem syncLoop_count_preserved (now : Nat) (ctx : SyncContext) :
    ∀ (batch : List SyncVersionInput) (st : ServerStore) (i : Nat),
    versionExists st i = true →
    countVid (syncLoop now ctx st batch).2 i = countVid st i ∧
    versionExists (syncLoop now ctx st batch).2 i = true := by
  intro batch
  induction batch with
  | nil => intro st i h; exact ⟨rfl, h⟩
  | cons v rest ih =>
    intro st i h
    obtain ⟨hc, he⟩ := @syncStep_count_preserved now ctx st v i h
    obtain ⟨hc2, he2⟩ := ih (syncStep now ctx st v) i he
    exact ⟨by rw [syncLoop]; rw [hc2, hc], by rw [syncLoop]; exact he2⟩

theorem syncStep_versions_fresh {now : Nat} {ctx : SyncContext}
    {st : ServerStore} {v : SyncVersionInput}
    (h : versionExists st v.id = false) :
    ∃ w : ServerVersionRecord, w.id = v.id ∧
      (syncStep now ctx st v).versions = st.versions ++ [w] := by
  rw [syncStep, if_neg (by simp [h])]
  cases getFileByVaultAndPath st ctx.vaultId v.file_path with
  | some file => exact ⟨_, rfl, rfl⟩
  | none =>
    cases sGetFileById st v.file_id with
    | some ex => exact ⟨_, rfl, rfl⟩
    | none => exact ⟨_, rfl, rfl⟩

theorem syncStep_count_fresh {now : Nat} {ctx : SyncContext} {st : ServerStore}
    {v : SyncVersionInput} (h : versionExists st v.id = false) :
    countVid (syncStep now ctx st v) v.id = countVid st v.id + 1 := by
  obtain ⟨w, hw, heq⟩ := @syncStep_versions_fresh now ctx st v h
  rw [countVid, countVid, heq, List.filter_append, List.length_append]
  rw [show List.filter (fun w2 => decide (w2.id = v.id)) [w] = [w] from by
    simp [hw]]
  rfl

/-- C7: in a vault-authorised batch, a version whose id already exists is
reported in `synced` and inserts no row; uploading a fresh version id twice
puts it in `synced` both times and leaves exactly one row with that id. -/
theorem c7_sync_idempotent (now now2 : Nat) (st : ServerStore)
    (ctx : SyncContext) (vault : VaultRecord) (vs : List SyncVersionInput)
    (v : SyncVersionInput)
    (hv : getVaultById st ctx.vaultId = some vault)
    (hu : vault.user_id = ctx.userId) :
    (∀ w ∈ vs, versionExists st w.id = true →
      w.id ∈ (syncVersions now st ctx vs).1.synced ∧
      countVid (syncVersions now st ctx vs).2 w.id = countVid st w.id) ∧
    (versionExists st v.id = false →
      v.id ∈ (syncVersions now st ctx [v]).1.synced ∧
      v.id ∈ (syncVersions now2 (syncVersions now st ctx [v]).2 ctx [v]).1.synced ∧
      countVid (syncVersions now2 (syncVersions now st ctx [v]).2 ctx [v]).2 v.id = 1) := by
  have hrun : ∀ (n : Nat) (st2 : ServerStore) (batch : List SyncVersionInput),
      getVaultById st2 ctx.vaultId = some vault →
      syncVersions n st2 ctx batch =
      ({ synced := (syncLoop n ctx st2 batch).1, errors := [] },
        (syncLoop n ctx st2 batch).2) := by
    intro n st2 batch hv2
    rw [syncVersions, hv2]
    show (if vault.user_id = ctx.userId then
        (({ synced := (syncLoop n ctx st2 batch).1, errors := [] } :
          SyncVersionsResponse), (syncLoop n ctx st2 batch).2)
      else _) = _
    rw [if_pos hu]
  constructor
  · intro w hw hex
    rw [hrun now st vs hv]
    constructor
    · show w.id ∈ (syncLoop now ctx st vs).1
      rw [syncLoop_synced now ctx vs st]
      exact List.mem_map_of_mem SyncVersionInput.id hw
    · exact (syncLoop_count_preserved now ctx vs st w.id hex).1
  · intro hfresh
    have h1 : syncVersions now st ctx [v] =
        ({ synced := [v.id], errors := [] }, syncStep now ctx st v) := by
      rw [hrun now st [v] hv]
      rfl
    have hstep1 : (syncVersions now st ctx [v]).2 = syncStep now ctx st v := by
      rw [h1]
    have hcount1 : countVid (syncStep now ctx st v) v.id = 1 := by
      rw [syncStep_count_fresh hfresh, countVid_zero_of_not_exists hfresh]
    have hex1 : versionExists (syncStep now ctx st v) v.id = true := by
      by_contra hcontra
      rw [Bool.not_eq_true] at hcontra
      rw [countVid_zero_of_not_exists hcontra] at hcount1
      exact absurd hcount1 (by simp)
    have hvaults1 : (syncStep now ctx st v).vaults = st.vaults := by
      rw [syncStep]
      by_cases h : versionExists st v.id = true
      · rw [if_pos h]
      · rw [if_neg h]
        cases getFileByVaultAndPath st ctx.vaultId v.file_path with
        | some file => rfl
        | none =>
          cases sGetFileById st v.file_id with
          | some ex => rfl
          | none => rfl
    have hv1 : getVaultById (syncStep now ctx st v) ctx.vaultId = some vault := by
      rw [getVaultById, hvaults1]
      exact hv
    refine ⟨?_, ?_, ?_⟩
    · rw [h1]
      exact List.mem_cons_self _ _
    · rw [hstep1, hrun now2 (syncStep now ctx st v) [v] hv1]
      show v.id ∈ (syncLoop now2 ctx (syncStep now ctx st v) [v]).1
      rw [syncLoop_synced]
      exact List.mem_cons_self _ _
    · rw [hstep1, hrun now2 (syncStep now ctx st v) [v] hv1]
      show countVid (syncLoop now2 ctx (syncStep now ctx st v) [v]).2 v.id = 1
      rw [(syncLoop_count_preserved now2 ctx [v] (syncStep now ctx st v)
        v.id hex1).1]
      exact hcount1

/-- C8: a sync batch naming a missing vault, or a vault owned by another
user, is rejected atomically: every uploaded version id is listed in
`errors`, `synced` is empty, and the server store is unchanged. -/
theorem c8_vault_rejection_atomic (now : Nat) (st : ServerStore)
    (ctx : SyncContext) (vs : List SyncVersionInput)
    (h : getVaultById st ctx.vaultId = none ∨
      ∃ vault, getVaultById st ctx.vaultId = some vault ∧
        vault.user_id ≠ ctx.userId) :
    (syncVersions now st ctx vs).1.synced = [] ∧
    (syncVersions now st ctx vs).1.errors.map SyncError.version_id =
      vs.map SyncVersionInput.id ∧
    (syncVersions now st ctx vs).2 = st := by
  rcases h with hnone | ⟨vault, hsome, hne⟩
  · rw [syncVersions, hnone]
    refine ⟨rfl, ?_, rfl⟩
    rw [List.map_map]
    rfl
  · have hres : syncVersions now st ctx vs =
        (({ synced := [], errors := vs.map (fun v2 => ⟨v2.id, "Access denied to vault"⟩) } : SyncVersionsResponse), st) := by
      rw [syncVersions, hsome]
      show (if vault.user_id = ctx.userId then _ else
          (({ synced := [], errors := vs.map (fun v2 => ⟨v2.id, "Access denied to vault"⟩) } : SyncVersionsResponse), st)) = _
      rw [if_neg hne]
    rw [hres]
    refine ⟨rfl, ?_, rfl⟩
    rw [List.map_map]
    rfl

/-! C9: merge-by-id versus merge-by-path precedence. -/

def c9store : ServerStore :=
  ⟨[⟨0, 0, "v", 0, 0⟩],
    [⟨1, 0, "p", none, 0, 0⟩, ⟨2, 0, "q", none, 0, 0⟩], []⟩

def c9upload : SyncVersionInput := ⟨10, "p", 2, true, "x", 5⟩

def c9result : SyncVersionsResponse × ServerStore :=
  syncVersions 100 c9store ⟨0, 7, 0⟩ [c9upload]

/-- C9 counterexample: the store holds file 1 at path `p` and file 2 at
path `q`, both in the request's vault; an upload asserting `file_id = 2`
but `file_path = p` is attached to file 1 — the `(vault_id, path)` match
wins, so merge-by-id does NOT take precedence over merge-by-path. -/
theorem c9_counterexample :
    sGetFileById c9store c9upload.file_id =
      some ⟨2, 0, "q", none, 0, 0⟩ ∧
    c9result.2.versions.map ServerVersionRecord.file_id = [1] ∧
    c9upload.file_id = 2 := by
  refine ⟨rfl, rfl, rfl⟩

/-- C9 amended: the `(vault_id, path)` lookup takes precedence; only when
no file matches the upload's path does an existing record with the client
file id get reused (and then no duplicate file record is created). -/
theorem c9_amended (now : Nat) (st : ServerStore) (ctx : SyncContext)
    (vault : VaultRecord) (v : SyncVersionInput) (ex : ServerFileRecord)
    (hv : getVaultById st ctx.vaultId = some vault)
    (hu : vault.user_id = ctx.userId)
    (hne : versionExists st v.id = false)
    (hpath : getFileByVaultAndPath st ctx.vaultId v.file_path = none)
    (hid : sGetFileById st v.file_id = some ex) :
    (syncVersions now st ctx [v]).2.files = st.files ∧
    ∃ w ∈ (syncVersions now st ctx [v]).2.versions,
      w.id = v.id ∧ w.file_id = ex.id := by
  have hstep : syncStep now ctx st v = sInsertVersion st
      ⟨v.id, ex.id, ctx.deviceId, v.is_checkpoint, v.data, v.created_at⟩ := by
    rw [syncStep, if_neg (by simp [hne]), hpath, hid]
  have hrun : syncVersions now st ctx [v] =
      ({ synced := [v.id], errors := [] }, syncStep now ctx st v) := by
    rw [syncVersions, hv]
    show (if vault.user_id = ctx.userId then
        (({ synced := (syncLoop now ctx st [v]).1, errors := [] } :
          SyncVersionsResponse), (syncLoop now ctx st [v]).2)
      else _) = _
    rw [if_pos hu]
    rfl
  rw [hrun, hstep]
  refine ⟨rfl, ⟨v.id, ex.id, ctx.deviceId, v.is_checkpoint, v.data,
    v.created_at⟩, ?_, rfl, rfl⟩
  show _ ∈ st.versions ++ [_]
  exact List.mem_append.mpr (Or.inr (List.mem_singleton.mpr rfl))

/-! C10: vault scoping of inserted versions. -/

def c10store : ServerStore :=
  ⟨[⟨0, 0, "v", 0, 0⟩, ⟨1, 1, "w", 0, 0⟩],
    [⟨5, 1, "q", none, 0, 0⟩], []⟩

def c10upload : SyncVersionInput := ⟨10, "p", 5, true, "x", 3⟩

def c10result : SyncVersionsResponse × ServerStore :=
  syncVersions 100 c10store ⟨0, 7, 0⟩ [c10upload]

/-- C10 counterexample: uploading to vault 0 (owned by the requesting
user 0) a version whose `file_id` collides with file 5 of vault 1 (owned by
user 1) attaches the inserted version to the foreign file: the request
vault is 0, yet the referenced file record's `vault_id` is 1. -/
theorem c10_counterexample :
    c10result.2.versions.map ServerVersionRecord.file_id = [5] ∧
    sGetFileById c10store 5 = some ⟨5, 1, "q", none, 0, 0⟩ ∧
    (⟨5, 1, "q", none, 0, 0⟩ : ServerFileRecord).vault_id = 1 ∧
    (⟨0, 7, 0⟩ : SyncContext).vaultId = 0 := by
  refine ⟨rfl, rfl, rfl, rfl⟩

def VaultScopedQ (ctx : SyncContext) (st0 st : ServerStore) : Prop :=
  ∀ f ∈ st.files, f.vault_id = ctx.vaultId ∨
    ∃ f0 ∈ st0.files, f0.id = f.id ∧ f0.vault_id = f.vault_id

def VaultScopedR (ctx : SyncContext) (st0 st : ServerStore) : Prop :=
  ∀ w ∈ st.versions, w ∈ st0.versions ∨
    ∃ f ∈ st.files, f.id = w.file_id ∧ f.vault_id = ctx.vaultId

theorem syncStep_scoped (now : Nat) (ctx : SyncContext) (st0 : ServerStore)
    (v : SyncVersionInput) (st : ServerStore)
    (hQ : VaultScopedQ ctx st0 st)
    (hsafe : ∀ f ∈ st0.files, f.id = v.file_id → f.vault_id = ctx.vaultId)
    (hR : VaultScopedR ctx st0 st) :
    VaultScopedQ ctx st0 (syncStep now ctx st v) ∧
    VaultScopedR ctx st0 (syncStep now ctx st v) := by
  rw [syncStep]
  by_cases hex : versionExists st v.id = true
  · rw [if_pos hex]
    exact ⟨hQ, hR⟩
  · rw [if_neg hex]
    cases hpath : getFileByVaultAndPath st ctx.vaultId v.file_path with
    | some file =>
      have hfmem : file ∈ st.files := List.mem_of_find?_eq_some hpath
      have hfvault : file.vault_id = ctx.vaultId := by
        have := List.find?_some hpath
        simp at this
        exact this.1
      have hQt : VaultScopedQ ctx st0 (sTouchFile st file.id now) := by
        intro f2 hf2
        obtain ⟨f, hf, hf2eq⟩ := List.mem_map.mp hf2
        have hsame : f2.id = f.id ∧ f2.vault_id = f.vault_id := by
          by_cases hfi : f.id = file.id
          · rw [← hf2eq]
            simp [hfi]
          · rw [← hf2eq]
            simp [hfi]
        rcases hQ f hf with hl | ⟨f0, hf0, hfid, hfv⟩
        · exact Or.inl (hsame.2.trans hl)
        · exact Or.inr ⟨f0, hf0, hfid.trans hsame.1.symm,
            hfv.trans hsame.2.symm⟩
      have hftouch : ∃ f2 ∈ (sTouchFile st file.id now).files,
          f2.id = file.id ∧ f2.vault_id = ctx.vaultId := by
        refine ⟨if file.id = file.id then { file with updated_at := now }
          else file, ?_, ?_, ?_⟩
        · exact List.mem_map_of_mem _ hfmem
        · simp
        · simp [hfvault]
      constructor
      · intro f2 hf2
        exact hQt f2 hf2
      · intro w hw
        rcases List.mem_append.mp hw with hwold | hwnew
        · rcases hR w hwold with hl | ⟨f, hf, hfid, hfv⟩
          · exact Or.inl hl
          · right
            refine ⟨if f.id = file.id then { f with updated_at := now }
              else f, List.mem_map_of_mem _ hf, ?_, ?_⟩
            · by_cases hfi : f.id = file.id
              · simp only [if_pos hfi]
                show f.id = w.file_id
                exact hfid
              · simp only [if_neg hfi]
                exact hfid
            · by_cases hfi : f.id = file.id
              · simp only [if_pos hfi]
                show f.vault_id = ctx.vaultId
                exact hfv
              · simp only [if_neg hfi]
                exact hfv
        · rw [List.mem_singleton.mp hwnew]
          right
          obtain ⟨f2, hf2, hf2id, hf2v⟩ := hftouch
          exact ⟨f2, hf2, hf2id, hf2v⟩
    | none =>
      cases hid : sGetFileById st v.file_id with
      | some ex =>
        have hexmem : ex ∈ st.files := List.mem_of_find?_eq_some hid
        have hexid : ex.id = v.file_id := by
          have := List.find?_some hid
          simpa using this
        have hexvault : ex.vault_id = ctx.vaultId := by
          rcases hQ ex hexmem with hl | ⟨f0, hf0, hfid, hfv⟩
          · exact hl
          · rw [← hfv]
            exact hsafe f0 hf0 (by rw [hfid, hexid])
        constructor
        · intro f2 hf2
          exact hQ f2 hf2
        · intro w hw
          rcases List.mem_append.mp hw with hwold | hwnew
          · exact hR w hwold
          · rw [List.mem_singleton.mp hwnew]
            exact Or.inr ⟨ex, hexmem, hexid ▸ rfl, hexvault⟩
      | none =>
        constructor
        · intro f2 hf2
          rcases List.mem_append.mp hf2 with hfl | hfr
          · exact hQ f2 hfl
          · rw [List.mem_singleton.mp hfr]
            exact Or.inl rfl
        · intro w hw
          rcases List.mem_append.mp hw with hwold | hwnew
          · rcases hR w hwold with hl | ⟨f, hf, hfid, hfv⟩
            · exact Or.inl hl
            · exact Or.inr ⟨f, List.mem_append.mpr (Or.inl hf), hfid, hfv⟩
          · rw [List.mem_singleton.mp hwnew]
            right
            refine ⟨⟨v.file_id, ctx.vaultId, v.file_path, none,
              v.created_at, now⟩, ?_, rfl, rfl⟩
            exact List.mem_append.mpr (Or.inr (List.mem_singleton.mpr rfl))

theorem syncLoop_scoped (now : Nat) (ctx : SyncContext) (st0 : ServerStore) :
    ∀ (batch : List SyncVersionInput) (st : ServerStore),
    VaultScopedQ ctx st0 st →
    (∀ f ∈ st0.files, ∀ v ∈ batch, f.id = v.file_id → f.vault_id = ctx.vaultId) →
    VaultScopedR ctx st0 st →
    VaultScopedQ ctx st0 (syncLoop now ctx st batch).2 ∧
    VaultScopedR ctx st0 (syncLoop now ctx st batch).2 := by
  intro batch
  induction batch with
  | nil => intro st hQ _ hR; exact ⟨hQ, hR⟩
  | cons v rest ih =>
    intro st hQ hsafe hR
    obtain ⟨hQ1, hR1⟩ := syncStep_scoped now ctx st0 v st hQ
      (fun f hf => hsafe f hf v (List.mem_cons_self _ _)) hR
    exact ih (syncStep now ctx st v) hQ1
      (fun f hf w hw => hsafe f hf w (List.mem_cons_of_mem _ hw)) hR1

/-- C10 amended: provided no pre-existing file record outside the request's
vault shares an uploaded `file_id`, every version row present after
`syncVersions` either pre-existed or references a file record of the
request's vault. -/
theorem c10_vault_scoped (now : Nat) (st : ServerStore) (ctx : SyncContext)
    (vault : VaultRecord) (vs : List SyncVersionInput)
    (hv : getVaultById st ctx.vaultId = some vault)
    (hu : vault.user_id = ctx.userId)
    (hsafe : ∀ f ∈ st.files, ∀ v ∈ vs, f.id = v.file_id →
      f.vault_id = ctx.vaultId) :
    ∀ w ∈ (syncVersions now st ctx vs).2.versions, w ∈ st.versions ∨
      ∃ f ∈ (syncVersions now st ctx vs).2.files,
        f.id = w.file_id ∧ f.vault_id = ctx.vaultId := by
  have hrun : syncVersions now st ctx vs =
      ({ synced := (syncLoop now ctx st vs).1, errors := [] },
        (syncLoop now ctx st vs).2) := by
    rw [syncVersions, hv]
    show (if vault.user_id = ctx.userId then
        (({ synced := (syncLoop now ctx st vs).1, errors := [] } :
          SyncVersionsResponse), (syncLoop now ctx st vs).2)
      else _) = _
    rw [if_pos hu]
  rw [hrun]
  have hinit : VaultScopedQ ctx st st :=
    fun f hf => Or.inr ⟨f, hf, rfl, rfl⟩
  have hinitR : VaultScopedR ctx st st := fun w hw => Or.inl hw
  obtain ⟨_, hRfin⟩ := syncLoop_scoped now ctx st vs st hinit hsafe hinitR
  exact fun w hw => hRfin w hw

/-! ### Concrete witness stores and traces -/

def wStore1 : Store := ⟨[⟨0, "p", none, 1, 1⟩], [⟨1, 0, true, "a", 1⟩], 2⟩

def wStore2 : Store :=
  ⟨[⟨0, "p", none, 1, 2⟩], [⟨1, 0, true, "a", 1⟩, ⟨2, 0, false, "b", 2⟩], 3⟩

def wStore3 : Store :=
  ⟨[⟨0, "p", none, 1, 3⟩],
    [⟨1, 0, true, "a", 1⟩, ⟨2, 0, false, "b", 2⟩, ⟨3, 0, true, "b", 3⟩], 4⟩

theorem wSave1 : save replaceCodec emptyStore 1 "p" "a" = some wStore1 := by
  decide

theorem wSave2 : save replaceCodec wStore1 2 "p" "b" = some wStore2 := by
  decide

theorem wRun : runDaemon replaceCodec wStore2 3 = some wStore3 := by decide

theorem wClockE : ClockAhead emptyStore 1 := by unfold ClockAhead; decide

theorem wClock1 : ClockAhead wStore1 2 := by unfold ClockAhead; decide

theorem wClock2 : ClockAhead wStore2 3 := by unfold ClockAhead; decide

theorem wReach1 : Reach replaceCodec wStore1 :=
  Reach.saveStep Reach.init wClockE wSave1

theorem wReach2 : Reach replaceCodec wStore2 :=
  Reach.saveStep wReach1 wClock1 wSave2

theorem wFind1 : getFileByPath wStore1 "p" = some ⟨0, "p", none, 1, 1⟩ := by
  decide

theorem wLat1 : getLatestVersion wStore1 0 = some ⟨1, 0, true, "a", 1⟩ := by
  decide

theorem wRec1 : reconstructVersion replaceCodec wStore1 0 1 = some "a" := by
  decide

theorem wHead2 : (fileVersions wStore2 0).head? = some ⟨1, 0, true, "a", 1⟩ := by
  decide

/-- Witness for C1: the two-entry trace save(1, a) then save(2, b) on the
exact replace codec round-trips both contents. -/
theorem c1_roundtrip_witness :
    Codec.Exact replaceCodec ∧
    (([((1 : Nat), "a"), (2, "b")].map Prod.fst).Pairwise (· < ·)) ∧
    (([((1 : Nat), "a"), (2, "b")].map Prod.snd).Nodup) ∧
    (∃ s, saveChain replaceCodec "p" [((1 : Nat), "a"), (2, "b")] emptyStore =
        some s ∧
      ∃ f, getFileByPath s "p" = some f ∧
        ∀ e ∈ [((1 : Nat), "a"), (2, "b")],
          reconstructVersion replaceCodec s f.id e.1 = some e.2) :=
  ⟨fun a b => rfl, by decide, by decide,
    c1_roundtrip replaceCodec (fun a b => rfl) "p" (1, "a") [(2, "b")]
      (by decide) (by decide)⟩

/-- Witness for C2: a daemon pass at clock 3 over the reachable two-version
store leaves reconstruction at timestamp 2 unchanged. -/
theorem c2_witness :
    Reach replaceCodec wStore2 ∧ ClockAhead wStore2 3 ∧
    runDaemon replaceCodec wStore2 3 = some wStore3 ∧
    (∃ v ∈ wStore2.versions, v.file_id = 0 ∧ v.created_at ≤ 2) ∧
    reconstructVersion replaceCodec wStore3 0 2 =
      reconstructVersion replaceCodec wStore2 0 2 :=
  ⟨wReach2, wClock2, wRun, by decide,
    c2_consolidation_preserves replaceCodec wReach2 wClock2 wRun 0 2
      (by decide)⟩

/-- Witness for C3 (amended): re-saving the untouched content "a" of the
non-deleted tracked file at clock 5 changes nothing. -/
theorem c3_amended_witness :
    getFileByPath wStore1 "p" = some ⟨0, "p", none, 1, 1⟩ ∧
    (⟨0, "p", none, 1, 1⟩ : FileRecord).deleted_at = none ∧
    getLatestVersion wStore1 0 = some ⟨1, 0, true, "a", 1⟩ ∧
    reconstructVersion replaceCodec wStore1 0 1 = some "a" ∧
    (save replaceCodec wStore1 5 "p" "a" = some wStore1 ∧
     (∀ s0 : Store, getFileByPath s0 "p" = none →
       (∀ g ∈ s0.files, g.id ≠ s0.nextId) →
       (∀ v ∈ s0.versions, v.file_id ≠ s0.nextId) →
       ∀ now1 now2 s1 s2, save replaceCodec s0 now1 "p" "a" = some s1 →
         save replaceCodec s1 now2 "p" "a" = some s2 →
         ∃ f, getFileByPath s2 "p" = some f ∧
           (fileVersions s2 f.id).length = 1)) :=
  ⟨wFind1, rfl, wLat1, wRec1, c3_amended replaceCodec 5 wFind1 rfl wLat1 wRec1⟩

/-- Witness for C4: in the reachable two-version store the first version is
the checkpoint ⟨1, 0, true, "a", 1⟩ and it survives every operation. -/
theorem c4_witness :
    Reach replaceCodec wStore2 ∧
    (fileVersions wStore2 0).head? = some ⟨1, 0, true, "a", 1⟩ ∧
    ((⟨1, 0, true, "a", 1⟩ : VersionRecord).is_checkpoint = true ∧
     (∀ t, (⟨1, 0, true, "a", 1⟩ : VersionRecord).created_at ≤ t →
       getNearestCheckpoint wStore2 0 t ≠ none) ∧
     (∀ now p cnt s', save replaceCodec wStore2 now p cnt = some s' →
       (fileVersions s' 0).head? = some ⟨1, 0, true, "a", 1⟩) ∧
     (∀ now s', ClockAhead wStore2 now →
       runDaemon replaceCodec wStore2 now = some s' →
       (fileVersions s' 0).head? = some ⟨1, 0, true, "a", 1⟩) ∧
     (∀ now p t s' out, restore replaceCodec wStore2 now p t = some (s', out) →
       (fileVersions s' 0).head? = some ⟨1, 0, true, "a", 1⟩)) :=
  ⟨wReach2, wHead2, c4_first_checkpoint replaceCodec wReach2 0 wHead2⟩

/-- Witness for C5 (amended): the reachable two-version store has strictly
increasing version timestamps. -/
theorem c5_amended_witness :
    Reach replaceCodec wStore2 ∧
    ((fileVersions wStore2 0).map VersionRecord.created_at).Pairwise (· < ·) :=
  ⟨wReach2, c5_amended replaceCodec wReach2 0⟩

/-! ### Concrete server stores for the sync witnesses -/

def st7 : ServerStore :=
  ⟨[⟨0, 0, "v", 0, 0⟩], [⟨6, 0, "q", none, 0, 0⟩], [⟨20, 6, 7, true, "y", 2⟩]⟩

def ctx7 : SyncContext := ⟨0, 7, 0⟩

def vs7 : List SyncVersionInput := [⟨20, "q", 6, true, "y", 2⟩]

def v7 : SyncVersionInput := ⟨10, "p", 5, true, "x", 3⟩

def ctx8 : SyncContext := ⟨9, 7, 0⟩

def st9 : ServerStore :=
  ⟨[⟨0, 0, "v", 0, 0⟩], [⟨2, 0, "q", none, 0, 0⟩], []⟩

def ctx9 : SyncContext := ⟨0, 7, 0⟩

def v9 : SyncVersionInput := ⟨10, "p", 2, true, "x", 5⟩

def st10 : ServerStore :=
  ⟨[⟨0, 0, "v", 0, 0⟩], [⟨5, 0, "q", none, 0, 0⟩], []⟩

def ctx10 : SyncContext := ⟨0, 7, 0⟩

def vs10 : List SyncVersionInput := [⟨10, "p", 5, true, "x", 3⟩]

/-- Witness for C7: re-uploading the already stored version 20 keeps a
single row, and uploading the fresh version 10 twice also leaves one row. -/
theorem c7_witness :
    getVaultById st7 ctx7.vaultId = some ⟨0, 0, "v", 0, 0⟩ ∧
    (⟨0, 0, "v", 0, 0⟩ : VaultRecord).user_id = ctx7.userId ∧
    ((∀ w ∈ vs7, versionExists st7 w.id = true →
      w.id ∈ (syncVersions 100 st7 ctx7 vs7).1.synced ∧
      countVid (syncVersions 100 st7 ctx7 vs7).2 w.id = countVid st7 w.id) ∧
    (versionExists st7 v7.id = false →
      v7.id ∈ (syncVersions 100 st7 ctx7 [v7]).1.synced ∧
      v7.id ∈ (syncVersions 200 (syncVersions 100 st7 ctx7 [v7]).2 ctx7
        [v7]).1.synced ∧
      countVid (syncVersions 200 (syncVersions 100 st7 ctx7 [v7]).2 ctx7
        [v7]).2 v7.id = 1)) :=
  ⟨by decide, by decide,
    c7_sync_idempotent 100 200 st7 ctx7 ⟨0, 0, "v", 0, 0⟩ vs7 v7
      (by decide) (by decide)⟩

/-- Witness for C8: user 9 addressing vault 0 (owned by user 0) has the
whole batch rejected and the store untouched. -/
theorem c8_witness :
    (getVaultById st7 ctx8.vaultId = none ∨
      ∃ vault, getVaultById st7 ctx8.vaultId = some vault ∧
        vault.user_id ≠ ctx8.userId) ∧
    ((syncVersions 100 st7 ctx8 [v7]).1.synced = [] ∧
     (syncVersions 100 st7 ctx8 [v7]).1.errors.map SyncError.version_id =
       [v7].map SyncVersionInput.id ∧
     (syncVersions 100 st7 ctx8 [v7]).2 = st7) :=
  ⟨Or.inr ⟨⟨0, 0, "v", 0, 0⟩, by decide, by decide⟩,
    c8_vault_rejection_atomic 100 st7 ctx8 [v7]
      (Or.inr ⟨⟨0, 0, "v", 0, 0⟩, by decide, by decide⟩)⟩

/-- Witness for C9 (amended): with no file at the uploaded path, the
existing record with the client file id is reused and no file is added. -/
theorem c9_amended_witness :
    getVaultById st9 ctx9.vaultId = some ⟨0, 0, "v", 0, 0⟩ ∧
    (⟨0, 0, "v", 0, 0⟩ : VaultRecord).user_id = ctx9.userId ∧
    versionExists st9 v9.id = false ∧
    getFileByVaultAndPath st9 ctx9.vaultId v9.file_path = none ∧
    sGetFileById st9 v9.file_id = some ⟨2, 0, "q", none, 0, 0⟩ ∧
    ((syncVersions 100 st9 ctx9 [v9]).2.files = st9.files ∧
     ∃ w ∈ (syncVersions 100 st9 ctx9 [v9]).2.versions,
       w.id = v9.id ∧
       w.file_id = (⟨2, 0, "q", none, 0, 0⟩ : ServerFileRecord).id) :=
  ⟨by decide, by decide, by decide, by decide, by decide,
    c9_amended 100 st9 ctx9 ⟨0, 0, "v", 0, 0⟩ v9 ⟨2, 0, "q", none, 0, 0⟩
      (by decide) (by decide) (by decide) (by decide) (by decide)⟩

/-- Witness for C10 (amended): when the only colliding file id belongs to
the request vault, every inserted version stays inside that vault. -/
theorem c10_vault_scoped_witness :
    getVaultById st10 ctx10.vaultId = some ⟨0, 0, "v", 0, 0⟩ ∧
    (⟨0, 0, "v", 0, 0⟩ : VaultRecord).user_id = ctx10.userId ∧
    (∀ f ∈ st10.files, ∀ v ∈ vs10, f.id = v.file_id →
      f.vault_id = ctx10.vaultId) ∧
    (∀ w ∈ (syncVersions 100 st10 ctx10 vs10).2.versions,
      w ∈ st10.versions ∨
      ∃ f ∈ (syncVersions 100 st10 ctx10 vs10).2.files,
        f.id = w.file_id ∧ f.vault_id = ctx10.vaultId) :=
  ⟨by decide, by decide, by decide,
    c10_vault_scoped 100 st10 ctx10 ⟨0, 0, "v", 0, 0⟩ vs10
      (by decide) (by decide) (by decide)⟩

end Obsync
